import Mathlib

/-!
Verification development for the lindb memdb write path and replication
channel manager.  The Go source is shallowly embedded: pure Lean functions
mirror the Go functions, concurrency is sequentialized (each operation is an
atomic step on an explicit state), machine integers are modelled as Int/Nat
(the Go counters are never near their overflow bounds in the properties
below), and wall-clock reads are threaded as explicit parameters.
-/

namespace LinDB

/-! Constants from src/constants/tsdb.go. -/

namespace constants

def DefaultMStoreMaxTagsCount : Nat := 10000000

def MStoreMaxTagKeysCount : Nat := 512

def TStoreMaxFieldsCount : Nat := 1024

def MaxSuggestions : Nat := 10000

end constants

/-- Error kinds of the series package (series.ErrTooManyTags and friends),
    plus the replication channel's ErrShardConfigConflict. -/
inductive MError where
  | tooManyTags
  | tooManyFields
  | wrongFieldType
  | notFound
  | resetVersionUnavailable
  | shardConfigConflict
deriving DecidableEq, Repr

/-- Decidable equality for Except results (used to evaluate witnesses). -/
instance {A B : Type} [DecidableEq A] [DecidableEq B] : DecidableEq (Except A B)
  | Except.ok x, Except.ok y =>
    if h : x = y then Decidable.isTrue (by rw [h])
    else Decidable.isFalse (fun hh => h (Except.ok.inj hh))
  | Except.ok _, Except.error _ => Decidable.isFalse (fun hh => Except.noConfusion hh)
  | Except.error _, Except.ok _ => Decidable.isFalse (fun hh => Except.noConfusion hh)
  | Except.error x, Except.error y =>
    if h : x = y then Decidable.isTrue (by rw [h])
    else Decidable.isFalse (fun hh => h (Except.error.inj hh))

/-! Embedding of Go's sort.Search: binary search for the least index in
    [0, n) satisfying a monotone predicate, returning n when none does. -/

/-- Go sort.Search inner loop: i and j are the current bounds. The loop
    halves j - i each step, so a fuel of the initial width makes the
    recursion structural (the fuel never runs out on the calls below). -/
def sortSearchGo (f : Nat → Bool) : Nat → Nat → Nat → Nat
  | 0, i, _ => i
  | fuel + 1, i, j =>
    if i < j then
      let m := (i + j) / 2
      if f m then sortSearchGo f fuel i m else sortSearchGo f fuel (m + 1) j
    else i

/-- Go sort.Search over [0, n). -/
def sortSearch (n : Nat) (f : Nat → Bool) : Nat := sortSearchGo f n 0 n

/-! Metric points (rpc/proto/field pb.Metric, decoded form). -/

/-- Field kind of the protobuf oneof pb.Field (field_store.go handles
    Field_Sum; every other kind falls into its default branch). -/
inductive PBFieldKind where
  | sum
  | min
  | max
deriving DecidableEq, Repr

/-- One field of a metric point. The numeric payload is carried but the
    aggregation arithmetic itself is not modelled (no claim depends on it). -/
structure PBField where
  name : String
  kind : PBFieldKind
  value : Int
deriving DecidableEq, Repr

/-- Decoded pb.Metric. -/
structure PBMetric where
  name : String
  timestamp : Int
  tags : List (String × String)
  fields : List PBField
deriving DecidableEq, Repr

/-- Context for writing (writeContext of database.go); the blockStore and
    generator references are threaded separately in this embedding. -/
structure WriteContext where
  metricID : Nat
  familyTime : Int
  slotIndex : Int
  timeInterval : Int
deriving DecidableEq, Repr

/-- PointTime of writeContext. -/
def WriteContext.pointTime (ctx : WriteContext) : Int :=
  ctx.familyTime + ctx.timeInterval * ctx.slotIndex

/-! SegmentStore. -/

/-- Modelled from the spec: SegmentStore (segment_store.go is not under
    src/). It stores numeric points of one field for one familyTime window
    in a fixed-width slot buffer; WriteFloat merges a value into a slot and
    returns the bytes grown. The model records the set of occupied slots and
    charges 8 bytes per occupied slot over a fixed base. -/
structure SStore where
  familyTime : Int
  slots : List Int
deriving DecidableEq, Repr

def emptySStoreSize : Int := 40

def SStore.MemSize (s : SStore) : Int := emptySStoreSize + 8 * s.slots.length

/-- Modelled from the spec: WriteFloat merges into the slot with the
    segment's agg function and returns the bytes grown (0 when the slot was
    already occupied). The aggregated value itself is not tracked. -/
def SStore.writeFloat (s : SStore) (slotIndex : Int) : SStore × Int :=
  if slotIndex ∈ s.slots then (s, 0)
  else ({ s with slots := slotIndex :: s.slots }, 8)

def newSimpleFieldStore (familyTime : Int) : SStore := ⟨familyTime, []⟩

/-! FieldStore (src/tsdb/memdb/field_store.go). -/

def emptyFieldStoreSize : Int := 2 + 24

/-- fieldStore: a sorted slice of SegmentStores keyed by familyTime.
    capNodes models cap(sStoreNodes) of the Go slice, which MemSize reads. -/
structure FieldStore where
  fieldID : Nat
  sStoreNodes : List SStore
  capNodes : Nat
deriving DecidableEq, Repr

def newFieldStore (fieldID : Nat) : FieldStore := ⟨fieldID, [], 0⟩

/-- Family time of the i-th node (out-of-range reads return a dummy; the
    search below never evaluates them). -/
def ftAt (l : List SStore) (i : Nat) : Int := (l.getD i ⟨0, []⟩).familyTime

/-- Index computed by sort.Search in GetSStore and removeSStore. -/
def FieldStore.searchIdx (fs : FieldStore) (familyTime : Int) : Nat :=
  sortSearch fs.sStoreNodes.length (fun i => decide (familyTime ≤ ftAt fs.sStoreNodes i))

/-- GetSStore: binary search; returns the segment iff the found index is in
    range and its familyTime matches. -/
def FieldStore.GetSStore (fs : FieldStore) (familyTime : Int) : Option SStore :=
  let idx := fs.searchIdx familyTime
  if h : idx < fs.sStoreNodes.length then
    if (fs.sStoreNodes.get ⟨idx, h⟩).familyTime = familyTime then
      some (fs.sStoreNodes.get ⟨idx, h⟩)
    else none
  else none

/-- removeSStore: binary search, then copy-shift-down (eraseIdx); the Go
    slice keeps its capacity. -/
def FieldStore.removeSStore (fs : FieldStore) (familyTime : Int) : FieldStore :=
  let idx := fs.searchIdx familyTime
  if h : idx < fs.sStoreNodes.length then
    if (fs.sStoreNodes.get ⟨idx, h⟩).familyTime = familyTime then
      { fs with sStoreNodes := fs.sStoreNodes.eraseIdx idx }
    else fs
  else fs

/-- Go append capacity growth for the small slices at hand (doubling). -/
def growCap (c : Nat) : Nat := if c = 0 then 1 else 2 * c

/-- Ordering used by sort.Sort over sStoreNodes (the Less method of the
    sStoreNodes sort.Interface). -/
def sLe (a b : SStore) : Prop := a.familyTime ≤ b.familyTime

instance : DecidableRel sLe := fun a b => Int.decLe a.familyTime b.familyTime

instance : IsTotal SStore sLe := ⟨fun a b => le_total a.familyTime b.familyTime⟩

instance : IsTrans SStore sLe := ⟨fun _ _ _ => le_trans⟩

/-- insertSStore: append then sort.Sort by familyTime (modelled by a sorted
    permutation — insertionSort — which coincides with the Go result
    whenever the familyTimes are distinct). -/
def FieldStore.insertSStore (fs : FieldStore) (s : SStore) : FieldStore :=
  { fs with
    sStoreNodes := List.insertionSort sLe (fs.sStoreNodes ++ [s])
    capNodes :=
      if fs.sStoreNodes.length < fs.capNodes then fs.capNodes else growCap fs.capNodes }

/-- Write of fieldStore: only the Sum kind creates/merges a segment; any
    other kind hits the default branch (logged and dropped, size 0). The Go
    code keeps the pointer of a freshly created segment and writes through
    it; the model writes the fresh segment before inserting it, which yields
    the same state. -/
def FieldStore.write (fs : FieldStore) (f : PBField) (ctx : WriteContext) : FieldStore × Int :=
  match f.kind with
  | PBFieldKind.sum =>
    match fs.GetSStore ctx.familyTime with
    | some _ =>
      let idx := fs.searchIdx ctx.familyTime
      match fs.sStoreNodes.get? idx with
      | some s =>
        let ws := s.writeFloat ctx.slotIndex
        ({ fs with sStoreNodes := fs.sStoreNodes.set idx ws.1 }, ws.2)
      | none => (fs, 0)
    | none =>
      let oldCap := fs.capNodes
      let s0 := newSimpleFieldStore ctx.familyTime
      let ws := s0.writeFloat ctx.slotIndex
      let fs1 := fs.insertSStore ws.1
      (fs1, 8 * ((fs1.capNodes : Int) - (oldCap : Int)) + s0.MemSize + ws.2)
  | _ => (fs, 0)

/-- FlushFieldTo: pops the segment of the familyTime (if any), serialises it
    and returns the memory reclaimed; flusher output is not tracked. -/
def FieldStore.flushFieldTo (fs : FieldStore) (familyTime : Int) : FieldStore × Int :=
  match fs.GetSStore familyTime with
  | none => (fs, 0)
  | some s => (fs.removeSStore familyTime, s.MemSize)

def FieldStore.MemSize (fs : FieldStore) : Int :=
  emptyFieldStoreSize + 8 * (fs.capNodes : Int) + (fs.sStoreNodes.map SStore.MemSize).sum

/-! Field metadata (series/field.Metas; the field package is not under
    src/, modelled as a list looked up by name). -/

/-- One entry of the metric store's field-meta list. -/
structure FieldMeta where
  name : String
  id : Nat
  ftype : PBFieldKind
deriving DecidableEq, Repr

def metasGetFromName (metas : List FieldMeta) (n : String) : Option FieldMeta :=
  metas.find? (fun m => m.name = n)

/-- GetFieldIDOrGenerate of metric_store.go, with the metric store's
    field-meta list and the generator state (next fresh fieldID) explicit.
    The metadb IDGenerator is modelled from the spec as a thread-safe fresh
    id source that never fails; the in-memory meta list carries the type
    check. The Go double-checked locking collapses in this sequential
    embedding. -/
def getFieldIDOrGenerate (metas : List FieldMeta) (fieldName : String)
    (fieldType : PBFieldKind) (nextFieldID : Nat) :
    List FieldMeta × Nat × Except MError Nat :=
  match metasGetFromName metas fieldName with
  | some fm =>
    if fm.ftype = fieldType then (metas, nextFieldID, Except.ok fm.id)
    else (metas, nextFieldID, Except.error MError.wrongFieldType)
  | none =>
    if metas.length ≥ constants.TStoreMaxFieldsCount then
      (metas, nextFieldID, Except.error MError.tooManyFields)
    else
      (metas ++ [⟨fieldName, nextFieldID, fieldType⟩], nextFieldID + 1,
        Except.ok nextFieldID)

/-! TimeSeriesStore. -/

def emptyTStoreSize : Int := 24

/-- Time-to-live before a series is considered expired (the eviction
    horizon; the concrete duration is irrelevant to the claims). -/
def seriesTTL : Int := 300000

/-- Modelled from the spec: TimeSeriesStore (timeseries_store.go is not
    under src/). Maps fieldID to FieldStore and tracks a last-used epoch to
    drive eviction. -/
structure TStore where
  fstores : List FieldStore
  lastAccessed : Int
deriving DecidableEq, Repr

def newTStore (now : Int) : TStore := ⟨[], now⟩

def TStore.MemSize (t : TStore) : Int :=
  emptyTStoreSize + (t.fstores.map FieldStore.MemSize).sum

def TStore.isExpired (t : TStore) (now : Int) : Bool :=
  decide (seriesTTL < now - t.lastAccessed)

def TStore.isNoData (t : TStore) : Bool :=
  t.fstores.all (fun fs => fs.sStoreNodes.isEmpty)

/-- Modelled from the spec: WriteField iterates the metric's fields,
    resolves or generates a fieldID via the mStoreFieldIDGetter
    (type-checked, per the error table ErrWrongFieldType/ErrTooManyFields
    surface to the Write caller), then delegates to FieldStore.Write.
    Returns the updated store, the updated meta list and generator state,
    the bytes grown so far, and the first error. -/
def TStore.writeFields (t : TStore) (fields : List PBField) (ctx : WriteContext)
    (metas : List FieldMeta) (nextFieldID : Nat) :
    TStore × List FieldMeta × Nat × Int × Option MError :=
  match fields with
  | [] => (t, metas, nextFieldID, 0, none)
  | f :: rest =>
    match getFieldIDOrGenerate metas f.name f.kind nextFieldID with
    | (metas1, nfid1, Except.error e) => (t, metas1, nfid1, 0, some e)
    | (metas1, nfid1, Except.ok fid) =>
      let createdPair : TStore × Int :=
        match t.fstores.find? (fun fs => fs.fieldID = fid) with
        | some _ => (t, (0 : Int))
        | none =>
          let fs0 := newFieldStore fid
          ({ t with fstores := t.fstores ++ [fs0] }, fs0.MemSize)
      let t1 := createdPair.1
      let written :=
        match t1.fstores.find? (fun fs => fs.fieldID = fid) with
        | some fs => (fs.write f ctx).2
        | none => 0
      let t2 := { t1 with
        fstores := t1.fstores.map
          (fun (fs : FieldStore) => if fs.fieldID = fid then (fs.write f ctx).1 else fs) }
      let res := t2.writeFields rest ctx metas1 nfid1
      (res.1, res.2.1, res.2.2.1, createdPair.2 + written + res.2.2.2.1, res.2.2.2.2)

/-- Write of the TimeSeriesStore: writes all fields and refreshes the
    last-used epoch. -/
def TStore.write (t : TStore) (m : PBMetric) (ctx : WriteContext)
    (metas : List FieldMeta) (nextFieldID : Nat) (now : Int) :
    TStore × List FieldMeta × Nat × Int × Option MError :=
  let r := t.writeFields m.fields ctx metas nextFieldID
  ({ r.1 with lastAccessed := now }, r.2.1, r.2.2.1, r.2.2.2.1, r.2.2.2.2)

/-- FlushFieldTo over every field store of the series for one familyTime. -/
def TStore.flushFamily (t : TStore) (familyTime : Int) : TStore × Int :=
  let pairs := t.fstores.map (fun fs => fs.flushFieldTo familyTime)
  ({ t with fstores := pairs.map (fun p => p.1) }, (pairs.map (fun p => p.2)).sum)

/-! TagIndex. -/

/-- One (tagKey, tagValue -> seriesID bitmap) entry of a tag index; the
    roaring bitmap is modelled as a duplicate-free list of seriesIDs. -/
structure TagKVEntrySet where
  key : String
  values : List (String × List Nat)
deriving DecidableEq, Repr

def emptyTagIndexSize : Int := 40

def entrySetMemSize (es : TagKVEntrySet) : Int :=
  32 + (es.values.map (fun p => 16 + 4 * (p.2.length : Int))).sum

/-- Modelled from the spec: TagIndex (tag_index.go is not under src/). It
    holds a version, an ordered list of TagKVEntrySet maintained in
    insertion order, a forward map seriesID -> TimeSeriesStore, a map from
    the canonical tag combination to its seriesID, a local seriesID counter
    that increments on every new tag combination (TagsUsed), and the
    earliest/latest time deltas relative to the version. -/
structure TagIndex where
  version : Int
  entrySets : List TagKVEntrySet
  tags2SeriesID : List (List (String × String) × Nat)
  seriesID2TStore : List (Nat × TStore)
  idCounter : Nat
  earliestTimeDelta : Int
  latestTimeDelta : Int
deriving DecidableEq, Repr

def newTagIndex (version : Int) : TagIndex := ⟨version, [], [], [], 0, 0, 0⟩

/-- Placeholder stored into the immutable atomic cell; version 0 marks it. -/
def staticNopTagIndex : TagIndex := newTagIndex 0

def TagIndex.MemSize (ti : TagIndex) : Int :=
  emptyTagIndexSize + (ti.entrySets.map entrySetMemSize).sum +
    (ti.seriesID2TStore.map (fun p => (p.2).MemSize)).sum

def TagIndex.tagsUsed (ti : TagIndex) : Nat := ti.idCounter

def TagIndex.tagsInUse (ti : TagIndex) : Nat := ti.seriesID2TStore.length

/-- Inserts a seriesID into the bitmap of one tagValue under one tagKey
    (creating the entry set or the value entry as needed, in insertion
    order). -/
def addValueSeries (values : List (String × List Nat)) (v : String) (sid : Nat) :
    List (String × List Nat) :=
  if values.any (fun p => p.1 = v) then
    values.map (fun p =>
      if p.1 = v then (p.1, if sid ∈ p.2 then p.2 else p.2 ++ [sid]) else p)
  else values ++ [(v, [sid])]

def addTagToEntrySets (sets : List TagKVEntrySet) (k v : String) (sid : Nat) :
    List TagKVEntrySet :=
  if sets.any (fun es => es.key = k) then
    sets.map (fun es =>
      if es.key = k then { es with values := addValueSeries es.values v sid } else es)
  else sets ++ [⟨k, [(v, [sid])]⟩]

/-- GetTStore by tag combination (the fast read path of metricStore.Write). -/
def TagIndex.getTStore (ti : TagIndex) (tags : List (String × String)) : Option TStore :=
  match ti.tags2SeriesID.find? (fun p => p.1 = tags) with
  | some p =>
    match ti.seriesID2TStore.find? (fun q => q.1 = p.2) with
    | some q => some q.2
    | none => none
  | none => none

/-- Modelled from the spec: GetOrCreateTStore allocates a new seriesID for a
    new tag combination, inserts it into the per-tagKey inverted bitmaps and
    the forward store, and returns the created size (the exact bytes grown,
    per the spec's size-accounting contract). The tag combination is used as
    its own canonical signature in this embedding (the Go code hashes the
    sorted tag set). -/
def TagIndex.getOrCreateTStore (ti : TagIndex) (tags : List (String × String))
    (now : Int) : TagIndex × Nat × Int :=
  match ti.tags2SeriesID.find? (fun p => p.1 = tags) with
  | some p =>
    match ti.seriesID2TStore.find? (fun q => q.1 = p.2) with
    | some _ => (ti, p.2, 0)
    | none =>
      -- the series was evicted: recreate a store under the same seriesID
      let ts := newTStore now
      let ti1 := { ti with seriesID2TStore := ti.seriesID2TStore ++ [(p.2, ts)] }
      (ti1, p.2, ti1.MemSize - ti.MemSize)
  | none =>
    let sid := ti.idCounter + 1
    let sets1 := tags.foldl (fun acc kv => addTagToEntrySets acc kv.1 kv.2 sid) ti.entrySets
    let ts := newTStore now
    let ti1 := { ti with
      entrySets := sets1
      tags2SeriesID := ti.tags2SeriesID ++ [(tags, sid)]
      seriesID2TStore := ti.seriesID2TStore ++ [(sid, ts)]
      idCounter := sid }
    (ti1, sid, ti1.MemSize - ti.MemSize)

/-- Writes the metric's fields into the series' TimeSeriesStore (the
    delegation step of metricStore.Write after GetOrCreateTStore). -/
def TagIndex.writeAtSeries (ti : TagIndex) (sid : Nat) (m : PBMetric)
    (ctx : WriteContext) (metas : List FieldMeta) (nextFieldID : Nat) (now : Int) :
    TagIndex × List FieldMeta × Nat × Int × Option MError :=
  match ti.seriesID2TStore.find? (fun q => q.1 = sid) with
  | none => (ti, metas, nextFieldID, 0, some MError.notFound)
  | some q =>
    let r := (q.2).write m ctx metas nextFieldID now
    ({ ti with seriesID2TStore :=
        ti.seriesID2TStore.map (fun p => if p.1 = sid then (p.1, r.1) else p) },
      r.2.1, r.2.2.1, r.2.2.2.1, r.2.2.2.2)

/-- UpdateIndexTimeRange: folds the point time into the earliest/latest
    deltas relative to the version. -/
def TagIndex.updateIndexTimeRange (ti : TagIndex) (pointTime : Int) : TagIndex :=
  { ti with
    earliestTimeDelta := min ti.earliestTimeDelta (pointTime - ti.version)
    latestTimeDelta := max ti.latestTimeDelta (pointTime - ti.version) }

/-- Modelled from the spec: FlushVersionDataTo flushes the familyTime's
    segments of every series of this version and returns the bytes
    reclaimed (the flusher artifact stream is not tracked). -/
def TagIndex.flushVersionDataTo (ti : TagIndex) (familyTime : Int) : TagIndex × Int :=
  let pairs := ti.seriesID2TStore.map (fun p => (p.1, (p.2).flushFamily familyTime))
  ({ ti with seriesID2TStore := pairs.map (fun p => (p.1, p.2.1)) },
    (pairs.map (fun p => p.2.2)).sum)

/-- RemoveTStores: removes the given seriesIDs from the forward map (the
    inverted bitmaps and the idCounter are untouched, so TagsUsed is
    unchanged while TagsInUse shrinks). -/
def TagIndex.removeTStores (ti : TagIndex) (sids : List Nat) : TagIndex :=
  { ti with seriesID2TStore := ti.seriesID2TStore.filter (fun p => ¬ p.1 ∈ sids) }

/-! MetricStore (metric_store.go, src/unnamed/part_003). -/

def emptyMStoreSize : Int := 8 + 8 + 24 + 8 + 4 + 4 + 4

/-- metricStore: the mutable tag index, the contents of the atomic.Value
    cell for the immutable index (none models the never-stored cell; the
    placeholder staticNopTagIndex has version 0), the copy-on-write
    field-meta list, the tags limit, and the tracked size counter. -/
structure MetricStore where
  immutableSlot : Option TagIndex
  mutable : TagIndex
  fieldsMetas : List FieldMeta
  maxTagsLimit : Nat
  metricID : Nat
  size : Int
deriving DecidableEq, Repr

/-- newMetricStore: fresh mutable index, default tags limit, size tracking
    initialized to the mutable index's size. -/
def newMetricStore (metricID : Nat) (version : Int) : MetricStore :=
  let m0 := newTagIndex version
  { immutableSlot := none
    mutable := m0
    fieldsMetas := []
    maxTagsLimit := constants.DefaultMStoreMaxTagsCount
    metricID := metricID
    size := m0.MemSize }

/-- atomicGetImmutable: a stored index with version 0 is the placeholder. -/
def MetricStore.atomicGetImmutable (ms : MetricStore) : Option TagIndex :=
  match ms.immutableSlot with
  | some t => if t.version ≠ 0 then some t else none
  | none => none

def MetricStore.getTagsUsed (ms : MetricStore) : Nat := ms.mutable.tagsUsed

def MetricStore.getTagsInUse (ms : MetricStore) : Nat := ms.mutable.tagsInUse

def MetricStore.isFull (ms : MetricStore) : Bool :=
  decide (ms.getTagsUsed ≥ ms.maxTagsLimit)

def MetricStore.isEmpty (ms : MetricStore) : Bool :=
  decide (ms.getTagsInUse = 0) && decide (ms.atomicGetImmutable = none)

def MetricStore.setMaxTagsLimit (ms : MetricStore) (limit : Nat) : MetricStore :=
  { ms with maxTagsLimit := limit }

def MetricStore.MemSize (ms : MetricStore) : Int :=
  emptyMStoreSize + ms.size +
    (match ms.atomicGetImmutable with
     | some t => t.MemSize
     | none => 0)

/-- Write of metricStore: rejects with ErrTooManyTags when full, otherwise
    resolves or creates the series, writes the fields, updates the index
    time range on success, and accumulates the size deltas. Returns the
    updated store, the generator state, writtenSize + createdSize, and the
    error. The Go fast path (GetTStore under shared lock) and the
    double-checked GetOrCreateTStore collapse in this sequential
    embedding. -/
def MetricStore.write (ms : MetricStore) (m : PBMetric) (ctx : WriteContext)
    (nextFieldID : Nat) (now : Int) : MetricStore × Nat × Int × Option MError :=
  if ms.isFull then (ms, nextFieldID, 0, some MError.tooManyTags)
  else
    let goc := ms.mutable.getOrCreateTStore m.tags now
    let created := goc.2.2
    let w := (goc.1).writeAtSeries goc.2.1 m ctx ms.fieldsMetas nextFieldID now
    let written := w.2.2.2.1
    let err := w.2.2.2.2
    let mut3 := if err = none then (w.1).updateIndexTimeRange ctx.pointTime else w.1
    ({ ms with mutable := mut3, fieldsMetas := w.2.1, size := ms.size + created + written },
      w.2.2.1, written + created, err)

/-- Evict: collects the series that are both expired and without data,
    removes them, and subtracts the reclaimed bytes. The Go two-pass
    double-check collapses sequentially. -/
def MetricStore.evict (ms : MetricStore) (now : Int) : MetricStore × Int :=
  let removed := ms.mutable.seriesID2TStore.filter
    (fun p => (p.2).isExpired now && (p.2).isNoData)
  let mut1 := ms.mutable.removeTStores (removed.map (fun p => p.1))
  let evictedSize := (removed.map (fun p => (p.2).MemSize)).sum
  ({ ms with mutable := mut1, size := ms.size - evictedSize }, evictedSize)

/-- ResetVersion: unavailable when the immutable slot holds a non-placeholder
    index; otherwise promotes the mutable index and installs a fresh one
    (whose version the Go code takes from the wall clock, threaded here). -/
def MetricStore.resetVersion (ms : MetricStore) (newVersion : Int) :
    MetricStore × Int × Option MError :=
  match ms.atomicGetImmutable with
  | some _ => (ms, 0, some MError.resetVersionUnavailable)
  | none =>
    let newMut := newTagIndex newVersion
    ({ ms with
        immutableSlot := some ms.mutable
        mutable := newMut
        size := newMut.MemSize },
      newMut.MemSize, none)

/-- FlushMetricsDataTo: flushes the mutable version's data for the family,
    swaps the placeholder into the immutable slot, flushes the former
    immutable, and subtracts the flushed bytes. The flusher's field-meta and
    metric events are not tracked; FlushMetric is modelled as succeeding. -/
def MetricStore.flushMetricsDataTo (ms : MetricStore) (familyTime : Int) :
    MetricStore × Int :=
  let fm := ms.mutable.flushVersionDataTo familyTime
  let f2 :=
    match ms.atomicGetImmutable with
    | some t => (t.flushVersionDataTo familyTime).2
    | none => 0
  let flushed := fm.2 + f2
  ({ ms with
      mutable := fm.1
      immutableSlot := some staticNopTagIndex
      size := ms.size - flushed },
    flushed)

/-! Prefix suggestions (SuggestTagKeys / SuggestTagValues of
    metric_store.go). -/

/-- strings.HasPrefix. -/
def strHasPfx (p s : String) : Bool := p.data.isPrefixOf s.data

/-- Inner loop of SuggestTagKeys: the result map is checked against the
    limit before each entry set, then the matching key is inserted. The Go
    map is modelled as a duplicate-free list in insertion order. -/
def collectTagKeys (pfx : String) (limit : Int) :
    List TagKVEntrySet → List String → List String
  | [], acc => acc
  | es :: rest, acc =>
    if (acc.length : Int) ≥ limit then acc
    else
      collectTagKeys pfx limit rest
        (if strHasPfx pfx es.key then (if es.key ∈ acc then acc else acc ++ [es.key]) else acc)

/-- One step of the SuggestTagValues inner loop: insert the tag value into
    the result map when it matches the prefix. -/
def addIfMatches (pfx : String) (a : List String) (p : String × List Nat) :
    List String :=
  if strHasPfx pfx p.1 then (if p.1 ∈ a then a else a ++ [p.1]) else a

/-- Inner loop of SuggestTagValues: the result map is checked against the
    limit before each entry set only; all matching values of the entry set
    are then inserted. -/
def collectTagValues (pfx : String) (limit : Int) :
    List TagKVEntrySet → List String → List String
  | [], acc => acc
  | es :: rest, acc =>
    if (acc.length : Int) ≥ limit then acc
    else collectTagValues pfx limit rest (es.values.foldl (addIfMatches pfx) acc)

/-- Number of prefix-matching values in one entry set. -/
def matchCount (pfx : String) (es : TagKVEntrySet) : Nat :=
  es.values.countP (fun p => strHasPfx pfx p.1)

/-- Largest matching-value count over a list of entry sets. -/
def maxMatchCount (pfx : String) (sets : List TagKVEntrySet) : Nat :=
  (sets.map (matchCount pfx)).foldr max 0

/-- Entry sets scanned by the suggest methods: the mutable index first, then
    the immutable one when present. -/
def MetricStore.suggestSets (ms : MetricStore) : List TagKVEntrySet :=
  ms.mutable.entrySets ++
    (match ms.atomicGetImmutable with
     | some t => t.entrySets
     | none => [])

/-- SuggestTagKeys of metricStore. Note the absence of a MaxSuggestions
    clamp here (only SuggestTagValues clamps the limit). -/
def MetricStore.suggestTagKeys (ms : MetricStore) (tagKeyPfx : String)
    (limit : Int) : List String :=
  if limit ≤ 0 then []
  else collectTagKeys tagKeyPfx limit ms.suggestSets []

set_option linter.unusedVariables false in
/-- SuggestTagValues of metricStore: clamps the limit to MaxSuggestions and
    scans all entry sets of both indexes (the tagKey argument is not used by
    the scan in the source). -/
def MetricStore.suggestTagValues (ms : MetricStore) (tagKey tagValuePfx : String)
    (limit : Int) : List String :=
  if limit ≤ 0 then []
  else
    let lim := if limit > (constants.MaxSuggestions : Int)
      then (constants.MaxSuggestions : Int) else limit
    collectTagValues tagValuePfx lim ms.suggestSets []

/-! MemoryDatabase (database.go, src/unnamed/part_003). -/

/-- Modelled from the spec: the interval calculator (pkg/timeutil is not
    under src/). A familyTime is the start of the rollup bucket (typically
    one hour) containing the timestamp; the slot is the offset inside the
    family at the configured interval. Divisions truncate as in Go. -/
def familyDurationMs : Int := 3600000

def calcFamilyStartTime (timestamp : Int) : Int :=
  familyDurationMs * (timestamp / familyDurationMs)

def calcSlot (timestamp familyTime interval : Int) : Int :=
  (timestamp - familyTime) / interval

/-- memoryDatabase. The sharded bucket array keyed by xxhash is modelled as
    an association list keyed by metric name (one claim-relevant slot per
    metric); the atomic size counter is an Int (the Go int32 stays far from
    its bounds here); familyTimes is the sync.Map keyset; the shared
    IDGenerator state is the two fresh-id counters. -/
structure MemDB where
  interval : Int
  stores : List (String × MetricStore)
  size : Int
  familyTimes : List Int
  lastWroteFamilyTime : Int
  nextMetricID : Nat
  nextFieldID : Nat
deriving DecidableEq, Repr

def newMemDB (interval : Int) : MemDB :=
  { interval := interval
    stores := []
    size := 0
    familyTimes := []
    lastWroteFamilyTime := 0
    nextMetricID := 1
    nextFieldID := 1 }

def MemDB.getMStore (db : MemDB) (name : String) : Option MetricStore :=
  match db.stores.find? (fun p => p.1 = name) with
  | some p => some p.2
  | none => none

/-- Replaces the store bound to the name (first binding). -/
def updateStore (stores : List (String × MetricStore)) (name : String)
    (ms : MetricStore) : List (String × MetricStore) :=
  match stores with
  | [] => []
  | p :: rest => if p.1 = name then (name, ms) :: rest else p :: updateStore rest name ms

/-- addFamilyTime: the atomic swap short-circuits a repeated family; the
    sync.Map store is an insert-if-absent on the keyset. -/
def MemDB.addFamilyTime (db : MemDB) (familyTime : Int) : MemDB :=
  if db.lastWroteFamilyTime = familyTime then db
  else
    { db with
      lastWroteFamilyTime := familyTime
      familyTimes :=
        if familyTime ∈ db.familyTimes then db.familyTimes
        else familyTime :: db.familyTimes }

/-- Families: the keyset, sorted ascending. -/
def MemDB.families (db : MemDB) : List Int :=
  List.insertionSort (fun a b => a ≤ b) db.familyTimes

/-- Write of memoryDatabase: computes familyTime and slotIndex, gets or
    creates the metric store (charging its size), delegates, adds the
    familyTime on success, and adds the written size. -/
def MemDB.write (db : MemDB) (m : PBMetric) (now : Int) : MemDB × Option MError :=
  let familyTime := calcFamilyStartTime m.timestamp
  let slotIndex := calcSlot m.timestamp familyTime db.interval
  let createStep : MemDB × MetricStore :=
    match db.getMStore m.name with
    | some ms => (db, ms)
    | none =>
      let ms := newMetricStore db.nextMetricID now
      ({ db with
          stores := db.stores ++ [(m.name, ms)]
          size := db.size + ms.MemSize
          nextMetricID := db.nextMetricID + 1 }, ms)
  let db1 := createStep.1
  let ms := createStep.2
  let ctx : WriteContext :=
    { metricID := ms.metricID
      familyTime := familyTime
      slotIndex := slotIndex
      timeInterval := db.interval }
  let w := ms.write m ctx db1.nextFieldID now
  let err := w.2.2.2
  let db2 := { db1 with
    stores := updateStore db1.stores m.name w.1
    nextFieldID := w.2.1
    size := db1.size + w.2.2.1 }
  if err = none then (db2.addFamilyTime familyTime, none) else (db2, err)

/-- ResetMetricStore: error when the metric does not exist (the Go code
    returns a fmt.Errorf, folded into MError.notFound here); otherwise
    delegates to ResetVersion and adds the created size. -/
def MemDB.resetMetricStore (db : MemDB) (name : String) (newVersion : Int) :
    MemDB × Option MError :=
  match db.getMStore name with
  | none => (db, some MError.notFound)
  | some ms =>
    let r := ms.resetVersion newVersion
    ({ db with
        stores := updateStore db.stores name r.1
        size := db.size + r.2.1 },
      r.2.2)

/-- FlushFamilyTo: removes the familyTime from the set, resets
    lastWroteFamilyTime to 0, and flushes every metric store, subtracting
    the flushed bytes. The non-blocking evict notification and the (always
    successful in this embedding) flusher are not tracked. -/
def MemDB.flushFamilyTo (db : MemDB) (familyTime : Int) : MemDB :=
  let pairs := db.stores.map (fun p => ((p.1, ((p.2).flushMetricsDataTo familyTime).1),
    ((p.2).flushMetricsDataTo familyTime).2))
  { db with
    familyTimes := db.familyTimes.filter (fun ft => ft ≠ familyTime)
    lastWroteFamilyTime := 0
    stores := pairs.map (fun p => p.1)
    size := db.size - (pairs.map (fun p => p.2)).sum }

/-- evict of memoryDatabase over all buckets: evicts expired series of every
    store, then removes the stores that became empty, subtracting their
    remaining size. -/
def MemDB.evict (db : MemDB) (now : Int) : MemDB :=
  let stepped := db.stores.map (fun p => (p.1, (p.2).evict now))
  let evicted := (stepped.map (fun p => p.2.2)).sum
  let afterEvict := stepped.map (fun p => (p.1, p.2.1))
  let removed := afterEvict.filter (fun p => (p.2).isEmpty)
  let kept := afterEvict.filter (fun p => ! (p.2).isEmpty)
  { db with
    stores := kept
    size := db.size - evicted - (removed.map (fun p => (p.2).MemSize)).sum }

/-- setLimitations for one metric (WithMaxTagsLimit syncer): missing metrics
    are skipped. -/
def MemDB.setLimit (db : MemDB) (name : String) (limit : Nat) : MemDB :=
  match db.getMStore name with
  | none => db
  | some ms => { db with stores := updateStore db.stores name (ms.setMaxTagsLimit limit) }

def MemDB.MemSize (db : MemDB) : Int := db.size

set_option linter.unusedVariables false in
/-- SuggestMetrics of memoryDatabase returns nil. -/
def MemDB.suggestMetrics (db : MemDB) (pfx : String) (limit : Int) : List String := []

def MemDB.suggestTagKeys (db : MemDB) (name tagKeyPfx : String) (limit : Int) :
    List String :=
  match db.getMStore name with
  | none => []
  | some ms => ms.suggestTagKeys tagKeyPfx limit

def MemDB.suggestTagValues (db : MemDB) (name tagKey tagValuePfx : String)
    (limit : Int) : List String :=
  match db.getMStore name with
  | none => []
  | some ms => ms.suggestTagValues tagKey tagValuePfx limit

/-- Largest matching-value count of one entry set among those the suggest
    scan of the named metric visits (0 when the metric is absent). -/
def MemDB.maxMatchFor (db : MemDB) (name vp : String) : Nat :=
  match db.getMStore name with
  | some ms => maxMatchCount vp ms.suggestSets
  | none => 0

/-! Operation traces over a memory database. -/

/-- One sequentialized operation on the memory database. -/
inductive DBOp where
  | write (m : PBMetric) (now : Int)
  | reset (name : String) (newVersion : Int)
  | flushFamily (familyTime : Int)
  | evict (now : Int)
  | setLimit (name : String) (limit : Nat)
deriving DecidableEq, Repr

def applyOp (db : MemDB) : DBOp → MemDB
  | DBOp.write m now => (db.write m now).1
  | DBOp.reset name v => (db.resetMetricStore name v).1
  | DBOp.flushFamily ft => db.flushFamilyTo ft
  | DBOp.evict now => db.evict now
  | DBOp.setLimit name limit => db.setLimit name limit

def runOps (interval : Int) (ops : List DBOp) : MemDB :=
  ops.foldl applyOp (newMemDB interval)

/-- Sum of the MemSize of all live metric stores, as the code computes it. -/
def MemDB.storesMemSize (db : MemDB) : Int :=
  (db.stores.map (fun p => (p.2).MemSize)).sum

/-! ChannelManager (replication channel, broker side). -/

/-- Modelled from the spec: the ChannelManager (channel.go is not under
    src/; src/unnamed/part_000 holds its tests). It records the numShards of
    the first successful CreateChannel per database and one channel per
    (database, shard); channel identity is modelled by a fresh Nat. -/
structure ChannelManager where
  databaseShards : List (String × Nat)
  channels : List ((String × Nat) × Nat)
  nextChannelID : Nat
deriving DecidableEq, Repr

def newChannelManager : ChannelManager := ⟨[], [], 1⟩

/-- Modelled from the spec: CreateChannel validates 0 <= shard < numShards
    (per the spec's scenario the out-of-range rejection surfaces as
    ErrShardConfigConflict, and nothing is recorded — the test then accepts
    a different numShards); a numShards mismatch with the recorded value is
    ErrShardConfigConflict; a repeated successful call returns the existing
    channel. -/
def ChannelManager.createChannel (cm : ChannelManager) (database : String)
    (numShards shard : Nat) : ChannelManager × Except MError Nat :=
  if shard ≥ numShards then (cm, Except.error MError.shardConfigConflict)
  else
    match cm.databaseShards.find? (fun p => p.1 = database) with
    | some p =>
      if p.2 ≠ numShards then (cm, Except.error MError.shardConfigConflict)
      else
        match cm.channels.find? (fun q => q.1 = (database, shard)) with
        | some q => (cm, Except.ok q.2)
        | none =>
          ({ cm with
              channels := cm.channels ++ [((database, shard), cm.nextChannelID)]
              nextChannelID := cm.nextChannelID + 1 },
            Except.ok cm.nextChannelID)
    | none =>
      match cm.channels.find? (fun q => q.1 = (database, shard)) with
      | some q => (cm, Except.ok q.2)
      | none =>
        ({ cm with
            databaseShards := cm.databaseShards ++ [(database, numShards)]
            channels := cm.channels ++ [((database, shard), cm.nextChannelID)]
            nextChannelID := cm.nextChannelID + 1 },
          Except.ok cm.nextChannelID)

/-! Invariant predicates used by the claims. -/

/-- Segment list sorted ascending by familyTime. -/
def sortedFT (fs : FieldStore) : Prop :=
  List.Pairwise (fun a b => a ≤ b) (fs.sStoreNodes.map SStore.familyTime)

/-- Each familyTime appears at most once in the segment list. -/
def nodupFT (fs : FieldStore) : Prop :=
  (fs.sStoreNodes.map SStore.familyTime).Nodup

instance (fs : FieldStore) : Decidable (sortedFT fs) := by
  unfold sortedFT; infer_instance

instance (fs : FieldStore) : Decidable (nodupFT fs) := by
  unfold nodupFT; infer_instance

/-- All field stores reachable in a tag index. -/
def TagIndex.allFieldStores (ti : TagIndex) : List FieldStore :=
  ti.seriesID2TStore.flatMap (fun p => (p.2).fstores)

/-- All field stores reachable in a metric store: the mutable index plus the
    immutable one when occupied. -/
def MetricStore.allFieldStores (ms : MetricStore) : List FieldStore :=
  ms.mutable.allFieldStores ++
    (match ms.atomicGetImmutable with
     | some t => t.allFieldStores
     | none => [])

/-- All field stores reachable in the memory database. -/
def MemDB.allFieldStores (db : MemDB) : List FieldStore :=
  db.stores.flatMap (fun p => (p.2).allFieldStores)

/-- Field-store well-formedness over the whole database. -/
def MemDB.fieldInv (db : MemDB) : Prop :=
  ∀ fs ∈ db.allFieldStores, sortedFT fs ∧ nodupFT fs

instance (db : MemDB) : Decidable (db.fieldInv) := by
  unfold MemDB.fieldInv; infer_instance

/-- Size-accounting invariant: no occupied immutable slot anywhere, and the
    database counter equals the sum of the stores' MemSize. -/
def MemDB.balanced (db : MemDB) : Prop :=
  (∀ p ∈ db.stores, (p.2).atomicGetImmutable = none) ∧
    db.size = db.storesMemSize

instance (db : MemDB) : Decidable (db.balanced) := by
  unfold MemDB.balanced; infer_instance

/-- The lastWroteFamilyTime sentinel invariant: when nonzero it is a member
    of the familyTimes set. -/
def MemDB.lwInv (db : MemDB) : Prop :=
  db.lastWroteFamilyTime ≠ 0 → db.lastWroteFamilyTime ∈ db.familyTimes

instance (db : MemDB) : Decidable (db.lwInv) := by
  unfold MemDB.lwInv; infer_instance

def DBOp.isReset : DBOp → Bool
  | DBOp.reset _ _ => true
  | _ => false

/-! Concrete inputs used by witnesses and counterexamples. -/

/-- A plain one-field metric point. -/
def mSum (ts : Int) : PBMetric :=
  { name := "cpu", timestamp := ts, tags := [("host", "a")]
    fields := [⟨"f1", PBFieldKind.sum, 1⟩] }

/-- A point whose two fields reuse one name with different kinds; the second
    resolution yields ErrWrongFieldType. -/
def mBadFields : PBMetric :=
  { name := "cpu", timestamp := 0, tags := [("host", "a")]
    fields := [⟨"f", PBFieldKind.sum, 1⟩, ⟨"f", PBFieldKind.min, 1⟩] }

/-- Trace whose final state has familyTime 0 in the families set. -/
def c5Trace : List DBOp := [DBOp.write (mSum 3600000) 1, DBOp.write (mSum 0) 2]

/-- Trace exercising ResetVersion followed by FlushFamilyTo. -/
def c2Trace : List DBOp :=
  [DBOp.write (mSum 0) 1, DBOp.reset "cpu" 7, DBOp.flushFamily 0]

/-- Reset-free trace used by the C2 witness. -/
def c2OkTrace : List DBOp :=
  [DBOp.write (mSum 0) 1, DBOp.write (mSum 3600000) 2, DBOp.flushFamily 0,
    DBOp.evict 400000]

/-- Tag values of one entry set: 10001 pairwise distinct strings. -/
def c9Vals : List (String × List Nat) :=
  (List.range (constants.MaxSuggestions + 1)).map
    (fun i => (String.mk (List.replicate i 'a'), []))

/-- A metric store holding one entry set with 10001 distinct tag values. -/
def c9Store : MetricStore :=
  { newMetricStore 1 5 with
    mutable := { newTagIndex 5 with entrySets := [⟨"k", c9Vals⟩] } }

/-- A field store built by two raw insertSStore calls with one familyTime. -/
def c8Store : FieldStore :=
  ((newFieldStore 1).insertSStore ⟨5, []⟩).insertSStore ⟨5, [1]⟩

/-! General helper lemmas. -/

theorem sortSearchGo_spec (f : Nat → Bool) :
    ∀ fuel i j, j - i ≤ fuel → i ≤ j →
    (∀ a b, i ≤ a → a ≤ b → b < j → f a = true → f b = true) →
    i ≤ sortSearchGo f fuel i j ∧ sortSearchGo f fuel i j ≤ j ∧
    (∀ k, i ≤ k → k < sortSearchGo f fuel i j → f k = false) ∧
    (∀ k, sortSearchGo f fuel i j ≤ k → k < j → f k = true) := by
  intro fuel
  induction fuel with
  | zero =>
    intro i j hn hij hmono
    have : i = j := by omega
    subst this
    simp only [sortSearchGo]
    exact ⟨le_refl i, le_refl i,
      fun k hk1 hk2 => absurd (lt_of_le_of_lt hk1 hk2) (lt_irrefl i),
      fun k hk1 hk2 => absurd (lt_of_le_of_lt hk1 hk2) (lt_irrefl i)⟩
  | succ fuel ih =>
    intro i j hn hij hmono
    rw [sortSearchGo]
    by_cases h : i < j
    · simp only [h, if_pos]
      by_cases hf : f ((i + j) / 2) = true
      · simp only [hf, if_pos]
        have hm1 : i ≤ (i + j) / 2 := by omega
        have hm2 : (i + j) / 2 < j := by omega
        have hrec := ih i ((i + j) / 2) (by omega) hm1
          (fun a b ha hab hb hfa => hmono a b ha hab (by omega) hfa)
        obtain ⟨r1, r2, r3, r4⟩ := hrec
        refine ⟨r1, by omega, r3, ?_⟩
        intro k hk1 hk2
        by_cases hkm : k < (i + j) / 2
        · exact r4 k hk1 hkm
        · exact hmono ((i + j) / 2) k hm1 (by omega) hk2 hf
      · simp only [hf, if_neg, Bool.false_eq_true, not_false_eq_true, if_false]
        have hm1 : i ≤ (i + j) / 2 := by omega
        have hm2 : (i + j) / 2 < j := by omega
        have hrec := ih ((i + j) / 2 + 1) j (by omega) (by omega)
          (fun a b ha hab hb hfa => hmono a b (by omega) hab hb hfa)
        obtain ⟨r1, r2, r3, r4⟩ := hrec
        refine ⟨by omega, r2, ?_, r4⟩
        intro k hk1 hk2
        by_cases hkm : (i + j) / 2 + 1 ≤ k
        · exact r3 k hkm hk2
        · by_cases hfk : f k = true
          · exact absurd (hmono k ((i + j) / 2) hk1 (by omega) hm2 hfk)
              (by simp [hf])
          · simpa using hfk
    · simp only [h, if_neg, not_false_eq_true, if_false]
      exact ⟨le_refl i, hij, fun k hk1 hk2 => absurd (lt_of_le_of_lt hk1 hk2) (lt_irrefl i),
        fun k hk1 hk2 => absurd hk2 (by omega)⟩

theorem map_eraseIdx {α β : Type} (f : α → β) (l : List α) (i : Nat) :
    (l.eraseIdx i).map f = (l.map f).eraseIdx i := by
  rw [List.eraseIdx_eq_take_drop_succ, List.eraseIdx_eq_take_drop_succ,
    List.map_append, List.map_take, List.map_drop]

theorem set_self {α : Type} (l : List α) (i : Nat) (h : i < l.length) :
    l.set i l[i] = l := by
  apply List.ext_getElem
  · simp
  · intro n h1 h2
    rcases eq_or_ne n i with rfl | hne
    · simp
    · rw [List.getElem_set_ne (Ne.symm hne)]

theorem not_mem_eraseIdx_of_nodup {l : List Int} {i : Nat} {a : Int}
    (h : i < l.length) (hn : l.Nodup) (ha : l[i] = a) : a ∉ l.eraseIdx i := by
  intro hmem
  have hcount : l.count a ≤ 1 := List.nodup_iff_count_le_one.mp hn a
  have hsplit : l = l.take i ++ (a :: l.drop (i + 1)) := by
    conv_lhs => rw [← List.take_append_drop i l]
    rw [← List.getElem_cons_drop l i h, ha]
  rw [List.eraseIdx_eq_take_drop_succ] at hmem
  have h1 : 0 < (l.take i).count a + (l.drop (i + 1)).count a := by
    rcases List.mem_append.mp hmem with hm | hm
    · have := List.count_pos_iff.mpr hm
      omega
    · have := List.count_pos_iff.mpr hm
      omega
  have h2 : l.count a = (l.take i).count a + ((l.drop (i + 1)).count a + 1) := by
    conv_lhs => rw [hsplit]
    rw [List.count_append, List.count_cons_self]
  omega

/-! Field-store lemmas (binary search, insertion, removal). -/

theorem ftAt_eq_getElem (l : List SStore) {k : Nat} (h : k < l.length) :
    ftAt l k = l[k].familyTime := by
  unfold ftAt
  rw [List.getD_eq_getElem l _ h]

theorem ftAt_mono {fs : FieldStore} (hs : sortedFT fs) {a b : Nat}
    (hab : a ≤ b) (hb : b < fs.sStoreNodes.length) :
    ftAt fs.sStoreNodes a ≤ ftAt fs.sStoreNodes b := by
  rcases eq_or_lt_of_le hab with rfl | hlt
  · exact le_refl _
  · have hmap := List.pairwise_map.mp hs
    have := (List.pairwise_iff_get.mp hmap) ⟨a, by omega⟩ ⟨b, hb⟩ hlt
    rw [ftAt_eq_getElem _ (by omega), ftAt_eq_getElem _ hb]
    simpa using this

theorem searchIdx_spec (fs : FieldStore) (ft : Int) (hs : sortedFT fs) :
    fs.searchIdx ft ≤ fs.sStoreNodes.length ∧
    (∀ k, k < fs.searchIdx ft → ftAt fs.sStoreNodes k < ft) ∧
    (∀ k, fs.searchIdx ft ≤ k → k < fs.sStoreNodes.length →
      ft ≤ ftAt fs.sStoreNodes k) := by
  have h := sortSearchGo_spec (fun i => decide (ft ≤ ftAt fs.sStoreNodes i))
    fs.sStoreNodes.length 0 fs.sStoreNodes.length (by omega) (Nat.zero_le _)
    (fun a b _ hab hb hfa => by
      simp only [decide_eq_true_eq] at hfa ⊢
      exact le_trans hfa (ftAt_mono hs hab hb))
  obtain ⟨_, h2, h3, h4⟩ := h
  unfold FieldStore.searchIdx sortSearch
  refine ⟨h2, ?_, ?_⟩
  · intro k hk
    have := h3 k (Nat.zero_le _) hk
    simp only [decide_eq_false_iff_not, not_le] at this
    exact this
  · intro k hk1 hk2
    have := h4 k hk1 hk2
    simpa using this

theorem GetSStore_mem {fs : FieldStore} {ft : Int} {s : SStore}
    (h : fs.GetSStore ft = some s) :
    s ∈ fs.sStoreNodes ∧ s.familyTime = ft := by
  unfold FieldStore.GetSStore at h
  by_cases h1 : fs.searchIdx ft < fs.sStoreNodes.length
  · simp only [h1, dif_pos] at h
    by_cases h2 : (fs.sStoreNodes.get ⟨fs.searchIdx ft, h1⟩).familyTime = ft
    · rw [if_pos h2] at h
      injection h with h3
      exact ⟨h3 ▸ List.get_mem _ _ _, h3 ▸ h2⟩
    · rw [if_neg h2] at h
      cases h
  · simp [h1] at h

theorem GetSStore_isSome_iff {fs : FieldStore} {ft : Int} (hs : sortedFT fs) :
    (fs.GetSStore ft).isSome ↔ ft ∈ fs.sStoreNodes.map SStore.familyTime := by
  obtain ⟨hle, hlo, hhi⟩ := searchIdx_spec fs ft hs
  constructor
  · intro h
    obtain ⟨s, hsome⟩ := Option.isSome_iff_exists.mp h
    obtain ⟨hmem, hft⟩ := GetSStore_mem hsome
    exact List.mem_map.mpr ⟨s, hmem, hft⟩
  · intro h
    obtain ⟨s, hmem, hft⟩ := List.mem_map.mp h
    obtain ⟨k, hk, hgk⟩ := List.mem_iff_getElem.mp hmem
    have hftk : ftAt fs.sStoreNodes k = ft := by
      rw [ftAt_eq_getElem _ hk, hgk, hft]
    have hik : fs.searchIdx ft ≤ k := by
      by_contra hc
      have := hlo k (by omega)
      omega
    have hidx : fs.searchIdx ft < fs.sStoreNodes.length := by omega
    have hup : ft ≤ ftAt fs.sStoreNodes (fs.searchIdx ft) := hhi _ (le_refl _) hidx
    have hdown : ftAt fs.sStoreNodes (fs.searchIdx ft) ≤ ft := by
      calc ftAt fs.sStoreNodes (fs.searchIdx ft) ≤ ftAt fs.sStoreNodes k :=
            ftAt_mono hs hik hk
        _ = ft := hftk
    have heq : (fs.sStoreNodes.get ⟨fs.searchIdx ft, hidx⟩).familyTime = ft := by
      have := le_antisymm hdown hup
      rw [ftAt_eq_getElem _ hidx] at this
      exact this
    rw [List.get_eq_getElem] at heq
    unfold FieldStore.GetSStore
    simp [hidx, heq]

theorem GetSStore_none_not_mem {fs : FieldStore} {ft : Int} (hs : sortedFT fs)
    (h : fs.GetSStore ft = none) :
    ft ∉ fs.sStoreNodes.map SStore.familyTime := by
  intro hmem
  have := (GetSStore_isSome_iff hs).mpr hmem
  rw [h] at this
  simp at this

theorem removeSStore_not_mem (fs : FieldStore) (ft : Int)
    (hs : sortedFT fs) (hn : nodupFT fs) :
    ft ∉ ((fs.removeSStore ft).sStoreNodes.map SStore.familyTime) := by
  obtain ⟨hle, hlo, hhi⟩ := searchIdx_spec fs ft hs
  have hnot : ft ∉ fs.sStoreNodes.map SStore.familyTime →
      ft ∉ fs.sStoreNodes.map SStore.familyTime := id
  unfold FieldStore.removeSStore
  by_cases h1 : fs.searchIdx ft < fs.sStoreNodes.length
  · by_cases h2 : (fs.sStoreNodes.get ⟨fs.searchIdx ft, h1⟩).familyTime = ft
    · simp only [h1, dif_pos, h2, if_pos]
      rw [map_eraseIdx]
      apply not_mem_eraseIdx_of_nodup (a := ft)
        (by rw [List.length_map]; exact h1) hn
      rw [List.getElem_map]
      exact h2
    · simp only [h1, dif_pos, h2, if_neg, not_false_eq_true]
      intro hmem
      obtain ⟨s, hmem2, hft⟩ := List.mem_map.mp hmem
      obtain ⟨k, hk, hgk⟩ := List.mem_iff_getElem.mp hmem2
      have hftk : ftAt fs.sStoreNodes k = ft := by
        rw [ftAt_eq_getElem _ hk, hgk, hft]
      have hik : fs.searchIdx ft ≤ k := by
        by_contra hc
        have := hlo k (by omega)
        omega
      have hup : ft ≤ ftAt fs.sStoreNodes (fs.searchIdx ft) := hhi _ (le_refl _) h1
      have hdown : ftAt fs.sStoreNodes (fs.searchIdx ft) ≤ ft := by
        calc ftAt fs.sStoreNodes (fs.searchIdx ft) ≤ ftAt fs.sStoreNodes k :=
              ftAt_mono hs hik hk
          _ = ft := hftk
      have : (fs.sStoreNodes.get ⟨fs.searchIdx ft, h1⟩).familyTime = ft := by
        have := le_antisymm hdown hup
        rw [ftAt_eq_getElem _ h1] at this
        exact this
      exact h2 this
  · simp only [h1, dif_neg, not_false_eq_true]
    intro hmem
    obtain ⟨s, hmem2, hft⟩ := List.mem_map.mp hmem
    obtain ⟨k, hk, hgk⟩ := List.mem_iff_getElem.mp hmem2
    have hftk : ftAt fs.sStoreNodes k = ft := by
      rw [ftAt_eq_getElem _ hk, hgk, hft]
    have := hlo k (by omega)
    omega

theorem writeFloat_familyTime (s : SStore) (i : Int) :
    (s.writeFloat i).1.familyTime = s.familyTime := by
  unfold SStore.writeFloat
  split <;> rfl

theorem insertSStore_nodes (fs : FieldStore) (s : SStore) :
    (fs.insertSStore s).sStoreNodes =
      List.insertionSort sLe (fs.sStoreNodes ++ [s]) := rfl

theorem insertSStore_sortedFT (fs : FieldStore) (s : SStore) :
    sortedFT (fs.insertSStore s) := by
  unfold sortedFT
  rw [insertSStore_nodes, List.pairwise_map]
  exact List.sorted_insertionSort sLe (fs.sStoreNodes ++ [s])

theorem insertSStore_nodupFT (fs : FieldStore) (s : SStore) (hn : nodupFT fs)
    (habs : s.familyTime ∉ fs.sStoreNodes.map SStore.familyTime) :
    nodupFT (fs.insertSStore s) := by
  unfold nodupFT
  rw [insertSStore_nodes]
  have hperm := (List.perm_insertionSort sLe (fs.sStoreNodes ++ [s])).map SStore.familyTime
  rw [hperm.nodup_iff, List.map_append]
  refine List.nodup_append.mpr ⟨hn, by simp, ?_⟩
  intro a ha hb
  simp only [List.map_cons, List.map_nil, List.mem_singleton] at hb
  subst hb
  exact habs ha

theorem removeSStore_nodes_cases (fs : FieldStore) (ft : Int) :
    (fs.removeSStore ft).sStoreNodes = fs.sStoreNodes ∨
      ∃ i, (fs.removeSStore ft).sStoreNodes = fs.sStoreNodes.eraseIdx i := by
  unfold FieldStore.removeSStore
  by_cases h1 : fs.searchIdx ft < fs.sStoreNodes.length
  · by_cases h2 : (fs.sStoreNodes.get ⟨fs.searchIdx ft, h1⟩).familyTime = ft
    · simp only [h1, dif_pos, h2, if_pos]
      exact Or.inr ⟨fs.searchIdx ft, rfl⟩
    · simp only [h1, dif_pos, h2, if_neg, not_false_eq_true]
      exact Or.inl trivial
  · simp only [h1, dif_neg, not_false_eq_true]
    exact Or.inl trivial

theorem sortedFT_of_nodes_eraseIdx {fs fs2 : FieldStore} {i : Nat}
    (h : fs2.sStoreNodes = fs.sStoreNodes.eraseIdx i) (hs : sortedFT fs) :
    sortedFT fs2 := by
  unfold sortedFT at hs ⊢
  rw [h, map_eraseIdx]
  exact List.Pairwise.sublist (List.eraseIdx_sublist _ i) hs

theorem nodupFT_of_nodes_eraseIdx {fs fs2 : FieldStore} {i : Nat}
    (h : fs2.sStoreNodes = fs.sStoreNodes.eraseIdx i) (hn : nodupFT fs) :
    nodupFT fs2 := by
  unfold nodupFT at hn ⊢
  rw [h, map_eraseIdx]
  exact List.Nodup.sublist (List.eraseIdx_sublist _ i) hn

theorem removeSStore_invFT (fs : FieldStore) (ft : Int)
    (hs : sortedFT fs) (hn : nodupFT fs) :
    sortedFT (fs.removeSStore ft) ∧ nodupFT (fs.removeSStore ft) := by
  rcases removeSStore_nodes_cases fs ft with h | ⟨i, h⟩
  · constructor
    · unfold sortedFT at hs ⊢
      rw [h]
      exact hs
    · unfold nodupFT at hn ⊢
      rw [h]
      exact hn
  · exact ⟨sortedFT_of_nodes_eraseIdx h hs, nodupFT_of_nodes_eraseIdx h hn⟩

theorem mapft_set_write (l : List SStore) (i : Nat) (h : i < l.length) (slot : Int) :
    (l.set i (l[i].writeFloat slot).1).map SStore.familyTime =
      l.map SStore.familyTime := by
  rw [List.map_set, writeFloat_familyTime]
  have hlen : i < (l.map SStore.familyTime).length := by simpa using h
  have h2 : l[i].familyTime = (l.map SStore.familyTime).get ⟨i, hlen⟩ := by
    simp
  rw [h2]
  have h3 := set_self (l.map SStore.familyTime) i hlen
  simpa using h3

theorem write_invFT (fs : FieldStore) (f : PBField) (ctx : WriteContext)
    (hs : sortedFT fs) (hn : nodupFT fs) :
    sortedFT (fs.write f ctx).1 ∧ nodupFT (fs.write f ctx).1 := by
  obtain ⟨fn, fk, fv⟩ := f
  cases fk
  case min => exact ⟨hs, hn⟩
  case max => exact ⟨hs, hn⟩
  case sum =>
    unfold FieldStore.write
    simp only
    cases hg : fs.GetSStore ctx.familyTime with
    | some s =>
      simp only
      cases hq : fs.sStoreNodes.get? (fs.searchIdx ctx.familyTime) with
      | none => exact ⟨hs, hn⟩
      | some s0 =>
        simp only
        rw [List.get?_eq_getElem?] at hq
        have hlt : fs.searchIdx ctx.familyTime < fs.sStoreNodes.length := by
          by_contra hc
          rw [List.getElem?_eq_none (by omega)] at hq
          cases hq
        have hs0 : s0 = fs.sStoreNodes[fs.searchIdx ctx.familyTime] := by
          rw [List.getElem?_eq_getElem hlt] at hq
          injection hq with hq
          exact hq.symm
        subst hs0
        have hmap := mapft_set_write fs.sStoreNodes (fs.searchIdx ctx.familyTime)
          hlt ctx.slotIndex
        constructor
        · unfold sortedFT at hs ⊢
          simpa [hmap] using hs
        · unfold nodupFT at hn ⊢
          simpa [hmap] using hn
    | none =>
      simp only
      have habs := GetSStore_none_not_mem hs hg
      have hftw : ((newSimpleFieldStore ctx.familyTime).writeFloat ctx.slotIndex).1.familyTime
          = ctx.familyTime := by
        rw [writeFloat_familyTime]
        rfl
      exact ⟨insertSStore_sortedFT _ _,
        insertSStore_nodupFT _ _ hn (by rw [hftw]; exact habs)⟩

theorem flushFieldTo_invFT (fs : FieldStore) (ft : Int)
    (hs : sortedFT fs) (hn : nodupFT fs) :
    sortedFT (fs.flushFieldTo ft).1 ∧ nodupFT (fs.flushFieldTo ft).1 := by
  unfold FieldStore.flushFieldTo
  cases hg : fs.GetSStore ft with
  | none => exact ⟨hs, hn⟩
  | some s => exact removeSStore_invFT fs ft hs hn

theorem flushFieldTo_not_mem (fs : FieldStore) (ft : Int)
    (hs : sortedFT fs) (hn : nodupFT fs) :
    ft ∉ ((fs.flushFieldTo ft).1.sStoreNodes.map SStore.familyTime) := by
  unfold FieldStore.flushFieldTo
  cases hg : fs.GetSStore ft with
  | none =>
    simp only
    exact GetSStore_none_not_mem hs hg
  | some s =>
    simp only
    exact removeSStore_not_mem fs ft hs hn

/-! Claim C8. -/

/-- C8 counterexample: two raw insertSStore calls with familyTime 5 leave
    the segment list with that familyTime twice, refuting the at-most-once
    part of the claim for arbitrary insertSStore sequences. -/
theorem claim_C8_counterexample :
    c8Store.sStoreNodes.map SStore.familyTime = [5, 5] ∧ ¬ nodupFT c8Store := by
  constructor
  · decide
  · decide

/-- C8 (amended): Write and removeSStore preserve sortedness and the
    at-most-once familyTime property; insertSStore always preserves
    sortedness and preserves at-most-once exactly when the inserted
    familyTime is absent (which is how Write invokes it); under sortedness
    the binary-search GetSStore finds a segment iff one with that familyTime
    is in the list. -/
theorem claim_C8_amended (fs : FieldStore) (f : PBField) (ctx : WriteContext)
    (s : SStore) (ft : Int) (hs : sortedFT fs) (hn : nodupFT fs) :
    (sortedFT (fs.write f ctx).1 ∧ nodupFT (fs.write f ctx).1) ∧
    (sortedFT (fs.removeSStore ft) ∧ nodupFT (fs.removeSStore ft)) ∧
    (sortedFT (fs.insertSStore s) ∧
      (s.familyTime ∉ fs.sStoreNodes.map SStore.familyTime →
        nodupFT (fs.insertSStore s))) ∧
    ((fs.GetSStore ft).isSome ↔ ft ∈ fs.sStoreNodes.map SStore.familyTime) :=
  ⟨write_invFT fs f ctx hs hn, removeSStore_invFT fs ft hs hn,
    ⟨insertSStore_sortedFT fs s, fun h => insertSStore_nodupFT fs s hn h⟩,
    GetSStore_isSome_iff hs⟩

/-- C8 witness: the amended theorem applied to a one-segment store. -/
theorem claim_C8_amended_witness :
    sortedFT ((newFieldStore 1).insertSStore ⟨5, []⟩) ∧
    nodupFT ((newFieldStore 1).insertSStore ⟨5, []⟩) ∧
    ((((newFieldStore 1).insertSStore ⟨5, []⟩).GetSStore 5).isSome ↔
      (5 : Int) ∈ ((newFieldStore 1).insertSStore ⟨5, []⟩).sStoreNodes.map
        SStore.familyTime) :=
  ⟨by decide, by decide,
    (claim_C8_amended ((newFieldStore 1).insertSStore ⟨5, []⟩)
      ⟨"f1", PBFieldKind.sum, 1⟩
      ⟨1, 5, 0, 10000⟩ ⟨7, []⟩ 5 (by decide) (by decide)).2.2.2⟩

/-! Claim C3. -/

theorem flushFamily_fstores {t : TStore} {ft : Int} {fs : FieldStore}
    (h : fs ∈ ((t.flushFamily ft).1).fstores) :
    ∃ fs0 ∈ t.fstores, fs = (fs0.flushFieldTo ft).1 := by
  unfold TStore.flushFamily at h
  simp only [List.map_map, List.mem_map, Function.comp] at h
  obtain ⟨fs0, hmem, heq⟩ := h
  exact ⟨fs0, hmem, heq.symm⟩

theorem flushVersionDataTo_fstores {ti : TagIndex} {ft : Int} {fs : FieldStore}
    (h : fs ∈ ((ti.flushVersionDataTo ft).1).allFieldStores) :
    ∃ fs0 ∈ ti.allFieldStores, fs = (fs0.flushFieldTo ft).1 := by
  unfold TagIndex.flushVersionDataTo at h
  unfold TagIndex.allFieldStores at h ⊢
  simp only [List.map_map, List.mem_flatMap, List.mem_map, Function.comp] at h
  obtain ⟨q, ⟨p, hp, hq⟩, hfs⟩ := h
  rw [← hq] at hfs
  simp only at hfs
  obtain ⟨fs0, hmem, heq⟩ := flushFamily_fstores hfs
  refine ⟨fs0, ?_, heq⟩
  exact List.mem_flatMap.mpr ⟨p, hp, hmem⟩

theorem flushMetricsDataTo_parts (ms : MetricStore) (ft : Int) :
    ((ms.flushMetricsDataTo ft).1).mutable = (ms.mutable.flushVersionDataTo ft).1 ∧
    ((ms.flushMetricsDataTo ft).1).atomicGetImmutable = none := by
  constructor <;> rfl

theorem flushMetricsDataTo_fstores {ms : MetricStore} {ft : Int} {fs : FieldStore}
    (h : fs ∈ ((ms.flushMetricsDataTo ft).1).allFieldStores) :
    ∃ fs0 ∈ ms.allFieldStores, fs = (fs0.flushFieldTo ft).1 := by
  have hp := flushMetricsDataTo_parts ms ft
  unfold MetricStore.allFieldStores at h
  rw [hp.1, hp.2] at h
  simp only [List.append_nil] at h
  obtain ⟨fs0, hmem, heq⟩ := flushVersionDataTo_fstores h
  refine ⟨fs0, ?_, heq⟩
  unfold MetricStore.allFieldStores
  exact List.mem_append_left _ hmem

/-- C3: after FlushFamilyTo(ft) completes (the flushers in this embedding
    always succeed), no FieldStore reachable in the database still holds a
    SegmentStore with familyTime ft, provided the segment lists are
    well-formed (sorted with distinct familyTimes, as every reachable state
    maintains). -/
theorem claim_C3_flush_removes_family (db : MemDB) (ft : Int)
    (hinv : db.fieldInv) :
    ∀ fs ∈ (db.flushFamilyTo ft).allFieldStores, ∀ s ∈ fs.sStoreNodes,
      s.familyTime ≠ ft := by
  intro fs hfs s hmem heq
  unfold MemDB.flushFamilyTo MemDB.allFieldStores at hfs
  simp only [List.map_map, List.mem_flatMap, List.mem_map, Function.comp] at hfs
  obtain ⟨q, ⟨p, hp, hq⟩, hfsq⟩ := hfs
  rw [← hq] at hfsq
  simp only at hfsq
  obtain ⟨fs0, hmem0, hfseq⟩ := flushMetricsDataTo_fstores hfsq
  have hinv0 := hinv fs0 (List.mem_flatMap.mpr ⟨p, hp, hmem0⟩)
  have hnot := flushFieldTo_not_mem fs0 ft hinv0.1 hinv0.2
  rw [← hfseq] at hnot
  exact hnot (List.mem_map.mpr ⟨s, hmem, heq⟩)

/-- C3 witness: the theorem applied to the database after one write. -/
theorem claim_C3_witness :
    (runOps 10000 [DBOp.write (mSum 0) 1]).fieldInv ∧
    (∀ fs ∈ ((runOps 10000 [DBOp.write (mSum 0) 1]).flushFamilyTo 0).allFieldStores,
      ∀ s ∈ fs.sStoreNodes, s.familyTime ≠ 0) :=
  ⟨by decide, claim_C3_flush_removes_family _ 0 (by decide)⟩

/-! Claim C1. -/

/-- C1: when the used-tags count has reached the limit, metricStore.Write
    returns ErrTooManyTags, leaves the store (series and field data)
    untouched, and reports zero written bytes. -/
theorem claim_C1_write_rejected_when_full (ms : MetricStore) (m : PBMetric)
    (ctx : WriteContext) (nextFieldID : Nat) (now : Int)
    (h : ms.getTagsUsed ≥ ms.maxTagsLimit) :
    ms.write m ctx nextFieldID now = (ms, nextFieldID, 0, some MError.tooManyTags) := by
  unfold MetricStore.write
  have hfull : ms.isFull = true := by
    unfold MetricStore.isFull
    exact decide_eq_true h
  rw [if_pos hfull]

/-- C1 witness: a fresh store whose limit was lowered to 0 rejects a write. -/
theorem claim_C1_witness :
    ((newMetricStore 1 5).setMaxTagsLimit 0).getTagsUsed ≥
      ((newMetricStore 1 5).setMaxTagsLimit 0).maxTagsLimit ∧
    ((newMetricStore 1 5).setMaxTagsLimit 0).write (mSum 0)
        ⟨1, 0, 0, 10000⟩ 1 1 =
      (((newMetricStore 1 5).setMaxTagsLimit 0), 1, 0, some MError.tooManyTags) :=
  ⟨by decide,
    claim_C1_write_rejected_when_full ((newMetricStore 1 5).setMaxTagsLimit 0)
      (mSum 0) ⟨1, 0, 0, 10000⟩ 1 1 (by decide)⟩

/-! Claim C4. -/

/-- C4: ResetVersion fails with ErrResetVersionUnavailable and leaves the
    store unchanged when the immutable slot holds an index with non-zero
    version; otherwise it moves the mutable index into the immutable slot,
    installs a freshly created mutable index, and returns no error. -/
theorem claim_C4_reset_version (ms : MetricStore) (v : Int) :
    (ms.atomicGetImmutable ≠ none →
      ms.resetVersion v = (ms, 0, some MError.resetVersionUnavailable)) ∧
    (ms.atomicGetImmutable = none →
      ((ms.resetVersion v).1.immutableSlot = some ms.mutable ∧
        (ms.resetVersion v).1.mutable = newTagIndex v ∧
        (ms.resetVersion v).2.2 = none)) := by
  constructor
  · intro h
    unfold MetricStore.resetVersion
    cases him : ms.atomicGetImmutable with
    | none => exact absurd him h
    | some t => rfl
  · intro h
    unfold MetricStore.resetVersion
    rw [h]
    exact ⟨rfl, rfl, rfl⟩

/-- C4 witness: both branches at concrete stores. -/
theorem claim_C4_witness :
    ((((newMetricStore 1 5).resetVersion 7).1).atomicGetImmutable ≠ none ∧
      (((newMetricStore 1 5).resetVersion 7).1).resetVersion 9 =
        ((((newMetricStore 1 5).resetVersion 7).1), 0,
          some MError.resetVersionUnavailable)) ∧
    ((newMetricStore 1 5).atomicGetImmutable = none ∧
      ((newMetricStore 1 5).resetVersion 7).1.immutableSlot =
        some (newMetricStore 1 5).mutable ∧
      ((newMetricStore 1 5).resetVersion 7).1.mutable = newTagIndex 7 ∧
      ((newMetricStore 1 5).resetVersion 7).2.2 = none) :=
  ⟨⟨by decide,
      (claim_C4_reset_version (((newMetricStore 1 5).resetVersion 7).1) 9).1
        (by decide)⟩,
    ⟨by decide,
      (claim_C4_reset_version (newMetricStore 1 5) 7).2 (by decide)⟩⟩

/-! Claim C7. -/

/-- C7: GetFieldIDOrGenerate returns ErrWrongFieldType when the name exists
    with a different type, ErrTooManyFields when the name is absent and the
    list already holds TStoreMaxFieldsCount entries, and otherwise the
    existing or freshly generated fieldID with no error. -/
theorem claim_C7_get_field_id (metas : List FieldMeta) (fieldName : String)
    (fieldType : PBFieldKind) (nextFieldID : Nat) :
    (∀ fm, metasGetFromName metas fieldName = some fm → fm.ftype ≠ fieldType →
      (getFieldIDOrGenerate metas fieldName fieldType nextFieldID).2.2 =
        Except.error MError.wrongFieldType) ∧
    (metasGetFromName metas fieldName = none →
      metas.length ≥ constants.TStoreMaxFieldsCount →
      (getFieldIDOrGenerate metas fieldName fieldType nextFieldID).2.2 =
        Except.error MError.tooManyFields) ∧
    (∀ fm, metasGetFromName metas fieldName = some fm → fm.ftype = fieldType →
      (getFieldIDOrGenerate metas fieldName fieldType nextFieldID).2.2 =
        Except.ok fm.id) ∧
    (metasGetFromName metas fieldName = none →
      metas.length < constants.TStoreMaxFieldsCount →
      (getFieldIDOrGenerate metas fieldName fieldType nextFieldID).2.2 =
        Except.ok nextFieldID) := by
  refine ⟨?_, ?_, ?_, ?_⟩
  · intro fm hfind hne
    unfold getFieldIDOrGenerate
    rw [hfind]
    simp [hne]
  · intro hfind hfull
    unfold getFieldIDOrGenerate
    rw [hfind]
    simp [hfull]
  · intro fm hfind heq
    unfold getFieldIDOrGenerate
    rw [hfind]
    simp [heq]
  · intro hfind hroom
    unfold getFieldIDOrGenerate
    rw [hfind]
    simp [Nat.not_le_of_lt hroom]

/-- C7 witness: the three outcomes at concrete meta lists. -/
theorem claim_C7_witness :
    (metasGetFromName [⟨"f", 3, PBFieldKind.sum⟩] "f" = some ⟨"f", 3, PBFieldKind.sum⟩ ∧
      PBFieldKind.sum ≠ PBFieldKind.min ∧
      (getFieldIDOrGenerate [⟨"f", 3, PBFieldKind.sum⟩] "f" PBFieldKind.min 9).2.2 =
        Except.error MError.wrongFieldType) ∧
    (metasGetFromName [⟨"f", 3, PBFieldKind.sum⟩] "f" = some ⟨"f", 3, PBFieldKind.sum⟩ ∧
      (getFieldIDOrGenerate [⟨"f", 3, PBFieldKind.sum⟩] "f" PBFieldKind.sum 9).2.2 =
        Except.ok 3) ∧
    (metasGetFromName [⟨"f", 3, PBFieldKind.sum⟩] "g" = none ∧
      (getFieldIDOrGenerate [⟨"f", 3, PBFieldKind.sum⟩] "g" PBFieldKind.sum 9).2.2 =
        Except.ok 9) :=
  ⟨⟨by decide, by decide,
      (claim_C7_get_field_id [⟨"f", 3, PBFieldKind.sum⟩] "f" PBFieldKind.min 9).1
        ⟨"f", 3, PBFieldKind.sum⟩ (by decide) (by decide)⟩,
    ⟨by decide,
      (claim_C7_get_field_id [⟨"f", 3, PBFieldKind.sum⟩] "f" PBFieldKind.sum 9).2.2.1
        ⟨"f", 3, PBFieldKind.sum⟩ (by decide) (by decide)⟩,
    ⟨by decide,
      (claim_C7_get_field_id [⟨"f", 3, PBFieldKind.sum⟩] "g" PBFieldKind.sum 9).2.2.2
        (by decide) (by decide)⟩⟩

/-! Claims C10 and C5: shape of memoryDatabase.Write over the family set. -/

theorem addFamilyTime_stores (db : MemDB) (ft : Int) :
    (db.addFamilyTime ft).stores = db.stores ∧
    (db.addFamilyTime ft).size = db.size := by
  unfold MemDB.addFamilyTime
  split
  · exact ⟨rfl, rfl⟩
  · exact ⟨rfl, rfl⟩

/-- A failing Write leaves the family fields untouched. -/
theorem write_err_case (db : MemDB) (m : PBMetric) (now : Int)
    (h : (db.write m now).2 ≠ none) :
    (db.write m now).1.familyTimes = db.familyTimes ∧
    (db.write m now).1.lastWroteFamilyTime = db.lastWroteFamilyTime := by
  unfold MemDB.write at h ⊢
  cases hc : db.getMStore m.name <;> simp only [hc] at h ⊢ <;>
    · split at h
      · simp at h
      · next herr =>
        rw [if_neg herr]
        exact ⟨rfl, rfl⟩



theorem mem_families_iff (db : MemDB) (x : Int) :
    x ∈ db.families ↔ x ∈ db.familyTimes :=
  (List.perm_insertionSort _ _).mem_iff

/-- C10: a failing Write never touches the families set, yet the metric
    store it may have created stays in the database: the concrete point with
    one field name used under two kinds errors with the store inserted. -/
theorem claim_C10_failed_write (db : MemDB) (m : PBMetric) (now : Int)
    (h : (db.write m now).2 ≠ none) :
    ((db.write m now).1.familyTimes = db.familyTimes ∧
      (db.write m now).1.families = db.families) ∧
    (((newMemDB 10000).write mBadFields 1).2 ≠ none ∧
      (newMemDB 10000).getMStore "cpu" = none ∧
      (((newMemDB 10000).write mBadFields 1).1.getMStore "cpu").isSome) := by
  constructor
  · obtain ⟨hft, hlw⟩ := write_err_case db m now h
    exact ⟨hft, by unfold MemDB.families; rw [hft]⟩
  · refine ⟨by decide, by decide, by decide⟩

/-- C10 witness: the theorem applied to the failing concrete write. -/
theorem claim_C10_witness :
    ((newMemDB 10000).write mBadFields 1).2 ≠ none ∧
    (((newMemDB 10000).write mBadFields 1).1.familyTimes =
      (newMemDB 10000).familyTimes ∧
      ((newMemDB 10000).write mBadFields 1).1.families = (newMemDB 10000).families) :=
  ⟨by decide, (claim_C10_failed_write (newMemDB 10000) mBadFields 1 (by decide)).1⟩

/-! Claim C5. -/

theorem addFamilyTime_lwInv (db : MemDB) (ft : Int) (h : db.lwInv) :
    (db.addFamilyTime ft).lwInv := by
  unfold MemDB.addFamilyTime MemDB.lwInv at *
  split
  · next heq => exact h
  · next hne =>
    intro hz
    simp only
    split
    · next hmem => exact hmem
    · next hmem => exact List.mem_cons_self _ _

theorem addFamilyTime_mem (db : MemDB) (ft : Int) (h : db.lwInv) (hz : ft ≠ 0) :
    ft ∈ (db.addFamilyTime ft).familyTimes := by
  unfold MemDB.addFamilyTime
  split
  · next heq => exact heq ▸ h (heq ▸ hz)
  · next hne =>
    simp only
    split
    · next hmem => exact hmem
    · next hmem => exact List.mem_cons_self _ _

/-- A successful Write re-adds the point's family to the set whenever it is
    nonzero, under the sentinel invariant. -/
theorem write_ok_mem_family (db : MemDB) (m : PBMetric) (now : Int)
    (hok : (db.write m now).2 = none) (hlw : db.lwInv)
    (hz : calcFamilyStartTime m.timestamp ≠ 0) :
    calcFamilyStartTime m.timestamp ∈ (db.write m now).1.familyTimes := by
  unfold MemDB.write at hok ⊢
  cases hc : db.getMStore m.name <;> simp only [hc] at hok ⊢ <;>
    · split at hok
      · next herr =>
        rw [if_pos herr]
        exact addFamilyTime_mem _ _ hlw hz
      · next herr => simp [herr] at hok

theorem lwInv_write (db : MemDB) (m : PBMetric) (now : Int) (h : db.lwInv) :
    ((db.write m now).1).lwInv := by
  by_cases he : (db.write m now).2 = none
  · unfold MemDB.write at he ⊢
    cases hc : db.getMStore m.name <;> simp only [hc] at he ⊢ <;>
      · split at he
        · next herr =>
          rw [if_pos herr]
          exact addFamilyTime_lwInv _ _ h
        · next herr => simp [herr] at he
  · obtain ⟨hft, hlw2⟩ := write_err_case db m now he
    unfold MemDB.lwInv at h ⊢
    rw [hft, hlw2]
    exact h

theorem lwInv_preserved (db : MemDB) (op : DBOp) (h : db.lwInv) :
    (applyOp db op).lwInv := by
  cases op with
  | write m now => exact lwInv_write db m now h
  | reset name v =>
    unfold applyOp MemDB.resetMetricStore MemDB.lwInv at *
    cases hc : db.getMStore name with
    | none => simpa [hc] using h
    | some ms => simpa [hc] using h
  | flushFamily ft =>
    unfold applyOp MemDB.flushFamilyTo MemDB.lwInv
    intro hz
    exact absurd rfl hz
  | evict now =>
    unfold applyOp MemDB.evict MemDB.lwInv at *
    exact h
  | setLimit name limit =>
    unfold applyOp MemDB.setLimit MemDB.lwInv at *
    cases hc : db.getMStore name with
    | none => simpa [hc] using h
    | some ms => simpa [hc] using h

theorem lwInv_runOps (interval : Int) (ops : List DBOp) :
    (runOps interval ops).lwInv := by
  unfold runOps
  have hbase : (newMemDB interval).lwInv := by
    intro h
    exact absurd rfl h
  generalize hdb : newMemDB interval = db at hbase
  clear hdb
  induction ops generalizing db with
  | nil => exact hbase
  | cons op rest ih => exact ih _ (lwInv_preserved db op hbase)

/-- C5 counterexample: with familyTime 0 in the families set, FlushFamilyTo(0)
    removes it, but a subsequent successful Write of a point in family 0 does
    not re-add it (the lastWroteFamilyTime sentinel is 0). -/
theorem claim_C5_counterexample :
    (0 : Int) ∈ (runOps 10000 c5Trace).families ∧
    (0 : Int) ∉ ((runOps 10000 c5Trace).flushFamilyTo 0).families ∧
    calcFamilyStartTime (mSum 0).timestamp = 0 ∧
    (((runOps 10000 c5Trace).flushFamilyTo 0).write (mSum 0) 3).2 = none ∧
    (0 : Int) ∉ (((runOps 10000 c5Trace).flushFamilyTo 0).write (mSum 0) 3).1.families := by
  refine ⟨by decide, by decide, by decide, by decide, by decide⟩

/-- C5 (amended): FlushFamilyTo(ft) removes ft from the set and resets
    lastWroteFamilyTime to 0 for every ft; the re-add guarantee holds for
    every nonzero ft: under the sentinel invariant (maintained by every
    reachable state), any subsequent successful Write whose timestamp falls
    in ft puts ft back into the set. For ft = 0 the sentinel suppresses the
    re-add, as the counterexample shows. -/
theorem claim_C5_amended (db : MemDB) (ft : Int) (m : PBMetric) (now : Int)
    (hlw : db.lwInv) :
    (ft ∉ (db.flushFamilyTo ft).families ∧
      (db.flushFamilyTo ft).lastWroteFamilyTime = 0) ∧
    (ft ≠ 0 → calcFamilyStartTime m.timestamp = ft → (db.write m now).2 = none →
      ft ∈ (db.write m now).1.families) := by
  constructor
  · constructor
    · rw [mem_families_iff]
      unfold MemDB.flushFamilyTo
      simp only
      intro hmem
      have := List.mem_filter.mp hmem
      simp at this
    · rfl
  · intro hz hfam hok
    rw [mem_families_iff, ← hfam]
    exact write_ok_mem_family db m now hok hlw (hfam ▸ hz)

/-- C5 witness: the amended theorem at the concrete two-family state. -/
theorem claim_C5_amended_witness :
    (runOps 10000 c5Trace).lwInv ∧
    ((3600000 : Int) ∉ ((runOps 10000 c5Trace).flushFamilyTo 3600000).families ∧
      ((runOps 10000 c5Trace).flushFamilyTo 3600000).lastWroteFamilyTime = 0) ∧
    ((3600000 : Int) ≠ 0 ∧ calcFamilyStartTime (mSum 3600000).timestamp = 3600000 ∧
      ((runOps 10000 c5Trace).write (mSum 3600000) 4).2 = none ∧
      (3600000 : Int) ∈ ((runOps 10000 c5Trace).write (mSum 3600000) 4).1.families) :=
  ⟨by decide,
    (claim_C5_amended (runOps 10000 c5Trace) 3600000 (mSum 3600000) 4 (by decide)).1,
    by decide, by decide, by decide,
    (claim_C5_amended (runOps 10000 c5Trace) 3600000 (mSum 3600000) 4 (by decide)).2
      (by decide) (by decide) (by decide)⟩

/-! Claim C6. -/

/-- C6: CreateChannel errors when shard is not below numShards; it returns
    ErrShardConfigConflict when numShards differs from the recorded value of
    a prior successful call for the database; and repeating a successful
    call with identical arguments returns the same channel instance with the
    manager unchanged. -/
theorem claim_C6_create_channel (cm : ChannelManager) (database : String)
    (numShards shard m : Nat) :
    (shard ≥ numShards →
      ∃ e, (cm.createChannel database numShards shard).2 = Except.error e) ∧
    (cm.databaseShards.find? (fun p => p.1 = database) = some (database, m) →
      m ≠ numShards →
      (cm.createChannel database numShards shard).2 =
        Except.error MError.shardConfigConflict) ∧
    (∀ cm2 ch, cm.createChannel database numShards shard = (cm2, Except.ok ch) →
      cm2.createChannel database numShards shard = (cm2, Except.ok ch)) := by
  refine ⟨?_, ?_, ?_⟩
  · intro h
    unfold ChannelManager.createChannel
    rw [if_pos h]
    exact ⟨MError.shardConfigConflict, rfl⟩
  · intro hfind hne
    unfold ChannelManager.createChannel
    by_cases h0 : shard ≥ numShards
    · rw [if_pos h0]
    · rw [if_neg h0, hfind]
      dsimp only
      have : ((database, m) : String × Nat).2 ≠ numShards := hne
      rw [if_pos this]
  · intro cm2 ch h
    unfold ChannelManager.createChannel at h ⊢
    by_cases h0 : shard ≥ numShards
    · rw [if_pos h0] at h
      simp at h
    · rw [if_neg h0] at h ⊢
      cases hf : cm.databaseShards.find? (fun p => p.1 = database) with
      | some p =>
        rw [hf] at h
        dsimp only at h
        by_cases hp : p.2 ≠ numShards
        · rw [if_pos hp] at h
          simp at h
        · rw [if_neg hp] at h
          cases hch : cm.channels.find? (fun q => q.1 = (database, shard)) with
          | some q =>
            rw [hch] at h
            dsimp only at h
            injection h with h1 h2
            subst h1
            injection h2 with h3
            rw [hf]
            dsimp only
            rw [if_neg hp, hch]
            dsimp only
            rw [h3]
          | none =>
            rw [hch] at h
            dsimp only at h
            injection h with h1 h2
            subst h1
            injection h2 with h3
            dsimp only
            rw [hf]
            dsimp only
            rw [if_neg hp, List.find?_append, hch]
            have hsing : List.find? (fun q => decide (q.1 = (database, shard)))
                [((database, shard), cm.nextChannelID)] =
                  some ((database, shard), cm.nextChannelID) := by
              simp
            rw [Option.none_or, hsing]
            dsimp only
            rw [h3]
      | none =>
        rw [hf] at h
        cases hch : cm.channels.find? (fun q => q.1 = (database, shard)) with
        | some q =>
          rw [hch] at h
          dsimp only at h
          injection h with h1 h2
          subst h1
          injection h2 with h3
          rw [hf]
          dsimp only
          rw [hch]
          dsimp only
          rw [h3]
        | none =>
          rw [hch] at h
          dsimp only at h
          injection h with h1 h2
          subst h1
          injection h2 with h3
          dsimp only
          rw [List.find?_append, hf]
          have hsing1 : List.find? (fun p => decide (p.1 = database))
              [((database, numShards) : String × Nat)] = some (database, numShards) := by
            simp
          rw [Option.none_or, hsing1]
          dsimp only
          have hne2 : ¬ (((database, numShards) : String × Nat).2 ≠ numShards) := by
            simp
          rw [if_neg hne2, List.find?_append, hch]
          have hsing2 : List.find? (fun q => decide (q.1 = (database, shard)))
              [((database, shard), cm.nextChannelID)] =
                some ((database, shard), cm.nextChannelID) := by
            simp
          rw [Option.none_or, hsing2]
          dsimp only
          rw [h3]

/-- C6 witness: the test trace — ("database",2,2) errors, ("database",3,0)
    succeeds, ("database",2,1) conflicts with the recorded 3, and repeating
    ("database",3,0) returns the same channel with the manager unchanged. -/
theorem claim_C6_witness :
    (2 ≥ 2 ∧
      (∃ e, (newChannelManager.createChannel "database" 2 2).2 = Except.error e)) ∧
    (((newChannelManager.createChannel "database" 2 2).1.createChannel
        "database" 3 0).1.databaseShards.find? (fun p => p.1 = "database") =
          some ("database", 3) ∧
      (3 : Nat) ≠ 2 ∧
      ((((newChannelManager.createChannel "database" 2 2).1.createChannel
        "database" 3 0).1).createChannel "database" 2 1).2 =
          Except.error MError.shardConfigConflict) ∧
    ((newChannelManager.createChannel "database" 2 2).1.createChannel
        "database" 3 0 =
      (((newChannelManager.createChannel "database" 2 2).1.createChannel
        "database" 3 0).1, Except.ok 1) ∧
      (((newChannelManager.createChannel "database" 2 2).1.createChannel
        "database" 3 0).1).createChannel "database" 3 0 =
        (((newChannelManager.createChannel "database" 2 2).1.createChannel
          "database" 3 0).1, Except.ok 1)) :=
  ⟨⟨by decide,
      (claim_C6_create_channel newChannelManager "database" 2 2 0).1 (by decide)⟩,
    ⟨by decide, by decide,
      (claim_C6_create_channel
        ((newChannelManager.createChannel "database" 2 2).1.createChannel
          "database" 3 0).1 "database" 2 1 3).2.1 (by decide) (by decide)⟩,
    ⟨by decide,
      (claim_C6_create_channel
        (newChannelManager.createChannel "database" 2 2).1 "database" 3 0 0).2.2
        _ 1 (by decide)⟩⟩

/-! Claim C2: size accounting. -/

theorem agi_congr {a b : MetricStore} (h : a.immutableSlot = b.immutableSlot) :
    a.atomicGetImmutable = b.atomicGetImmutable := by
  unfold MetricStore.atomicGetImmutable
  rw [h]

theorem memsize_shape {ms ms2 : MetricStore} {d : Int}
    (hslot : ms2.immutableSlot = ms.immutableSlot) (hsize : ms2.size = ms.size + d) :
    ms2.MemSize = ms.MemSize + d := by
  unfold MetricStore.MemSize
  rw [agi_congr hslot, hsize]
  ring

theorem mstore_write_shape (ms : MetricStore) (m : PBMetric) (ctx : WriteContext)
    (nfid : Nat) (now : Int) :
    (ms.write m ctx nfid now).1.immutableSlot = ms.immutableSlot ∧
    (ms.write m ctx nfid now).1.size = ms.size + (ms.write m ctx nfid now).2.2.1 := by
  unfold MetricStore.write
  split
  · exact ⟨rfl, by simp⟩
  · refine ⟨rfl, ?_⟩
    dsimp only
    ring

theorem mstore_evict_shape (ms : MetricStore) (now : Int) :
    (ms.evict now).1.immutableSlot = ms.immutableSlot ∧
    (ms.evict now).1.size = ms.size - (ms.evict now).2 := by
  unfold MetricStore.evict
  exact ⟨rfl, rfl⟩

theorem setMaxTagsLimit_shape (ms : MetricStore) (limit : Nat) :
    (ms.setMaxTagsLimit limit).immutableSlot = ms.immutableSlot ∧
    (ms.setMaxTagsLimit limit).size = ms.size := by
  unfold MetricStore.setMaxTagsLimit
  exact ⟨rfl, rfl⟩

theorem flushMetricsDataTo_size (ms : MetricStore) (ft : Int) :
    ((ms.flushMetricsDataTo ft).1).size =
      ms.size - (ms.flushMetricsDataTo ft).2 := rfl

theorem flushMetricsDataTo_shape (ms : MetricStore) (ft : Int)
    (himm : ms.atomicGetImmutable = none) :
    ((ms.flushMetricsDataTo ft).1).MemSize =
      ms.MemSize - (ms.flushMetricsDataTo ft).2 := by
  unfold MetricStore.MemSize
  rw [(flushMetricsDataTo_parts ms ft).2, flushMetricsDataTo_size, himm]
  ring

theorem mem_updateStore {stores : List (String × MetricStore)} {n : String}
    {msn : MetricStore} {p : String × MetricStore}
    (h : p ∈ updateStore stores n msn) : p ∈ stores ∨ p = (n, msn) := by
  induction stores with
  | nil => simp [updateStore] at h
  | cons q rest ih =>
    unfold updateStore at h
    split at h
    · rcases List.mem_cons.mp h with rfl | h2
      · exact Or.inr rfl
      · exact Or.inl (List.mem_cons_of_mem _ h2)
    · rcases List.mem_cons.mp h with rfl | h2
      · exact Or.inl (List.mem_cons_self _ _)
      · rcases ih h2 with h3 | h3
        · exact Or.inl (List.mem_cons_of_mem _ h3)
        · exact Or.inr h3

theorem sum_updateStore {stores : List (String × MetricStore)} {n : String}
    {pr : String × MetricStore}
    (h : stores.find? (fun p => p.1 = n) = some pr) (msn : MetricStore) :
    ((updateStore stores n msn).map (fun p => (p.2).MemSize)).sum =
      (stores.map (fun p => (p.2).MemSize)).sum - (pr.2).MemSize + msn.MemSize := by
  induction stores with
  | nil => simp at h
  | cons q rest ih =>
    by_cases hq : q.1 = n
    · rw [List.find?_cons_of_pos _ (by simpa using hq)] at h
      injection h with h2
      subst h2
      unfold updateStore
      rw [if_pos hq]
      simp only [List.map_cons, List.sum_cons]
      ring
    · rw [List.find?_cons_of_neg _ (by simpa using hq)] at h
      unfold updateStore
      rw [if_neg hq]
      simp only [List.map_cons, List.sum_cons, ih h]
      ring

theorem getMStore_some {db : MemDB} {name : String} {ms : MetricStore}
    (h : db.getMStore name = some ms) :
    ∃ pr, db.stores.find? (fun p => p.1 = name) = some pr ∧ pr.2 = ms ∧
      pr ∈ db.stores := by
  unfold MemDB.getMStore at h
  cases hf : db.stores.find? (fun p => p.1 = name) with
  | none => rw [hf] at h; cases h
  | some pr =>
    rw [hf] at h
    injection h with h2
    exact ⟨pr, rfl, h2, List.mem_of_find?_eq_some hf⟩

theorem getMStore_none {db : MemDB} {name : String}
    (h : db.getMStore name = none) :
    db.stores.find? (fun p => p.1 = name) = none := by
  unfold MemDB.getMStore at h
  cases hf : db.stores.find? (fun p => p.1 = name) with
  | none => rfl
  | some pr => rw [hf] at h; cases h

theorem balanced_of_eq {a b : MemDB} (hstores : b.stores = a.stores)
    (hsize : b.size = a.size) (h : a.balanced) : b.balanced := by
  unfold MemDB.balanced MemDB.storesMemSize at h ⊢
  rw [hstores, hsize]
  exact h

theorem balanced_write (db : MemDB) (m : PBMetric) (now : Int)
    (h : db.balanced) : ((db.write m now).1).balanced := by
  obtain ⟨himm, hsum⟩ := h
  unfold MemDB.write
  cases hc : db.getMStore m.name with
  | some ms =>
    simp only [hc]
    obtain ⟨pr, hfind, hpr2, hprmem⟩ := getMStore_some hc
    set ctx0 : WriteContext :=
      { metricID := ms.metricID, familyTime := calcFamilyStartTime m.timestamp,
        slotIndex := calcSlot m.timestamp (calcFamilyStartTime m.timestamp) db.interval,
        timeInterval := db.interval } with hctx
    set w := ms.write m ctx0 db.nextFieldID now with hwdef
    have hw := mstore_write_shape ms m ctx0 db.nextFieldID now
    rw [← hwdef] at hw
    have hbal2 : (MemDB.mk db.interval (updateStore db.stores m.name w.1)
        (db.size + w.2.2.1) db.familyTimes db.lastWroteFamilyTime db.nextMetricID
        w.2.1).balanced := by
      constructor
      · intro p hp
        rcases mem_updateStore hp with h2 | h2
        · exact himm p h2
        · rw [h2]
          show (w.1).atomicGetImmutable = none
          rw [agi_congr hw.1, ← hpr2]
          exact himm pr hprmem
      · show db.size + w.2.2.1 = _
        unfold MemDB.storesMemSize
        dsimp only
        rw [sum_updateStore hfind w.1, memsize_shape hw.1 hw.2, hpr2]
        unfold MemDB.storesMemSize at hsum
        omega
    split
    · exact balanced_of_eq (addFamilyTime_stores _ _).1 (addFamilyTime_stores _ _).2 hbal2
    · exact hbal2
  | none =>
    simp only [hc]
    have hfnone := getMStore_none hc
    set ms0 := newMetricStore db.nextMetricID now with hms0
    have hfind : (db.stores ++ [(m.name, ms0)]).find? (fun p => p.1 = m.name) =
        some (m.name, ms0) := by
      rw [List.find?_append, hfnone, Option.none_or]
      simp
    set ctx0 : WriteContext :=
      { metricID := ms0.metricID, familyTime := calcFamilyStartTime m.timestamp,
        slotIndex := calcSlot m.timestamp (calcFamilyStartTime m.timestamp) db.interval,
        timeInterval := db.interval } with hctx
    set w := ms0.write m ctx0 db.nextFieldID now with hwdef
    have hw := mstore_write_shape ms0 m ctx0 db.nextFieldID now
    rw [← hwdef] at hw
    have hslot0 : ms0.atomicGetImmutable = none := rfl
    have hbal2 : (MemDB.mk db.interval
        (updateStore (db.stores ++ [(m.name, ms0)]) m.name w.1)
        (db.size + ms0.MemSize + w.2.2.1) db.familyTimes db.lastWroteFamilyTime
        (db.nextMetricID + 1) w.2.1).balanced := by
      constructor
      · intro p hp
        rcases mem_updateStore hp with h2 | h2
        · rcases List.mem_append.mp h2 with h3 | h3
          · exact himm p h3
          · simp only [List.mem_singleton] at h3
            rw [h3]
            exact hslot0
        · rw [h2]
          show (w.1).atomicGetImmutable = none
          rw [agi_congr hw.1]
          exact hslot0
      · show db.size + ms0.MemSize + w.2.2.1 = _
        unfold MemDB.storesMemSize
        dsimp only
        rw [sum_updateStore hfind w.1, memsize_shape hw.1 hw.2]
        simp only [List.map_append, List.sum_append, List.map_cons, List.sum_cons,
          List.map_nil, List.sum_nil]
        unfold MemDB.storesMemSize at hsum
        omega
    split
    · exact balanced_of_eq (addFamilyTime_stores _ _).1 (addFamilyTime_stores _ _).2 hbal2
    · exact hbal2

theorem sum_flush (ft : Int) (stores : List (String × MetricStore))
    (h : ∀ p ∈ stores, (p.2).atomicGetImmutable = none) :
    (stores.map (fun p => (((p.2).flushMetricsDataTo ft).1).MemSize)).sum =
      (stores.map (fun p => (p.2).MemSize)).sum -
        (stores.map (fun p => ((p.2).flushMetricsDataTo ft).2)).sum := by
  induction stores with
  | nil => simp
  | cons q rest ih =>
    simp only [List.map_cons, List.sum_cons]
    rw [flushMetricsDataTo_shape _ _ (h q (List.mem_cons_self _ _)),
      ih (fun p hp => h p (List.mem_cons_of_mem _ hp))]
    ring

theorem balanced_flush (db : MemDB) (ft : Int) (h : db.balanced) :
    (db.flushFamilyTo ft).balanced := by
  obtain ⟨himm, hsum⟩ := h
  unfold MemDB.flushFamilyTo
  constructor
  · intro p hp
    simp only [List.map_map, List.mem_map, Function.comp_def] at hp
    obtain ⟨q, hq, heq⟩ := hp
    rw [← heq]
    exact (flushMetricsDataTo_parts q.2 ft).2
  · show db.size - _ = _
    unfold MemDB.storesMemSize
    simp only [List.map_map, Function.comp_def]
    rw [sum_flush ft db.stores himm]
    unfold MemDB.storesMemSize at hsum
    omega

theorem sum_evict (now : Int) (stores : List (String × MetricStore)) :
    (stores.map (fun p => (((p.2).evict now).1).MemSize)).sum =
      (stores.map (fun p => (p.2).MemSize)).sum -
        (stores.map (fun p => ((p.2).evict now).2)).sum := by
  induction stores with
  | nil => simp
  | cons q rest ih =>
    simp only [List.map_cons, List.sum_cons]
    have hm := @memsize_shape q.2 ((q.2.evict now).1) (-((q.2.evict now).2))
      (mstore_evict_shape q.2 now).1
      (by rw [(mstore_evict_shape q.2 now).2]; ring)
    rw [hm, ih]
    ring

theorem sum_filter_not {γ : Type} (f : γ → Int) (q : γ → Bool) (l : List γ) :
    ((l.filter q).map f).sum + ((l.filter (fun x => ! q x)).map f).sum =
      (l.map f).sum := by
  induction l with
  | nil => simp
  | cons a rest ih =>
    by_cases hq : q a <;>
      simp only [List.filter_cons, hq, Bool.not_true, Bool.not_false, if_pos, if_neg,
        Bool.false_eq_true, not_false_eq_true, ite_true, ite_false, List.map_cons,
        List.sum_cons] <;> omega

theorem balanced_evict (db : MemDB) (now : Int) (h : db.balanced) :
    (db.evict now).balanced := by
  obtain ⟨himm, hsum⟩ := h
  unfold MemDB.evict
  constructor
  · intro p hp
    simp only [List.map_map, Function.comp_def, List.mem_filter, List.mem_map] at hp
    obtain ⟨⟨q, hq, heq⟩, _⟩ := hp
    rw [← heq]
    show ((q.2.evict now).1).atomicGetImmutable = none
    rw [agi_congr (mstore_evict_shape q.2 now).1]
    exact himm q hq
  · show db.size - _ - _ = _
    unfold MemDB.storesMemSize
    simp only [List.map_map, Function.comp_def]
    have hsplit := sum_filter_not (fun p : String × MetricStore => (p.2).MemSize)
      (fun p => (p.2).isEmpty)
      (db.stores.map (fun p => (p.1, ((p.2).evict now).1)))
    simp only [List.map_map, Function.comp_def] at hsplit
    have hstep := sum_evict now db.stores
    unfold MemDB.storesMemSize at hsum
    omega

theorem balanced_setLimit (db : MemDB) (name : String) (limit : Nat)
    (h : db.balanced) : (db.setLimit name limit).balanced := by
  obtain ⟨himm, hsum⟩ := h
  unfold MemDB.setLimit
  cases hc : db.getMStore name with
  | none => exact ⟨himm, hsum⟩
  | some ms =>
    obtain ⟨pr, hfind, hpr2, hprmem⟩ := getMStore_some hc
    constructor
    · intro p hp
      rcases mem_updateStore hp with h2 | h2
      · exact himm p h2
      · rw [h2]
        show ((ms.setMaxTagsLimit limit)).atomicGetImmutable = none
        rw [agi_congr (setMaxTagsLimit_shape ms limit).1, ← hpr2]
        exact himm pr hprmem
    · show db.size = _
      unfold MemDB.storesMemSize
      rw [sum_updateStore hfind (ms.setMaxTagsLimit limit),
        @memsize_shape ms (ms.setMaxTagsLimit limit) 0
          (setMaxTagsLimit_shape ms limit).1
          (by rw [(setMaxTagsLimit_shape ms limit).2]; ring), hpr2]
      unfold MemDB.storesMemSize at hsum
      omega

theorem balanced_preserved (db : MemDB) (op : DBOp) (h : db.balanced)
    (hop : op.isReset = false) : (applyOp db op).balanced := by
  cases op with
  | write m now => exact balanced_write db m now h
  | reset name v => simp [DBOp.isReset] at hop
  | flushFamily ft => exact balanced_flush db ft h
  | evict now => exact balanced_evict db now h
  | setLimit name limit => exact balanced_setLimit db name limit h

theorem balanced_fold : ∀ (ops : List DBOp) (db : MemDB), db.balanced →
    (∀ op ∈ ops, op.isReset = false) → (ops.foldl applyOp db).balanced := by
  intro ops
  induction ops with
  | nil => intro db h _; exact h
  | cons op rest ih =>
    intro db h hops
    exact ih _ (balanced_preserved db op h (hops op (List.mem_cons_self _ _)))
      (fun o ho => hops o (List.mem_cons_of_mem _ ho))

/-- C2 (amended): over any operation sequence of writes, flushes, evictions
    and limit updates that never invokes ResetVersion, the database size
    counter equals the sum of the live metric stores' MemSize at every
    quiescent point. Once ResetVersion is followed by FlushFamilyTo the
    counter permanently exceeds the true sum by the unflushed residue of the
    dropped immutable index, as the counterexample shows. -/
theorem claim_C2_amended (interval : Int) (ops : List DBOp)
    (h : ∀ op ∈ ops, op.isReset = false) :
    (runOps interval ops).MemSize = (runOps interval ops).storesMemSize := by
  have hb : (newMemDB interval).balanced := by
    constructor
    · intro p hp
      simp [newMemDB] at hp
    · rfl
  exact (balanced_fold ops (newMemDB interval) hb h).2

/-- C2 counterexample: after Write, ResetVersion, FlushFamilyTo — a
    quiescent point with no in-flight operation — the size counter differs
    from the sum of the stores' MemSize. -/
theorem claim_C2_counterexample :
    (runOps 10000 c2Trace).MemSize ≠ (runOps 10000 c2Trace).storesMemSize := by
  decide

/-- C2 witness: a reset-free trace with a write, a flush and an eviction. -/
theorem claim_C2_amended_witness :
    (∀ op ∈ c2OkTrace, op.isReset = false) ∧
    (runOps 10000 c2OkTrace).MemSize = (runOps 10000 c2OkTrace).storesMemSize :=
  ⟨by decide, claim_C2_amended 10000 c2OkTrace (by decide)⟩

/-! Claim C9: suggestion scans. -/

theorem strHasPfx_empty (v : String) : strHasPfx "" v = true := by
  unfold strHasPfx
  simp

theorem addIfMatches_foldl_mem (pfx : String) :
    ∀ (vals : List (String × List Nat)) (acc : List String) (x : String),
      x ∈ vals.foldl (addIfMatches pfx) acc →
      x ∈ acc ∨ (strHasPfx pfx x = true ∧ ∃ p ∈ vals, p.1 = x) := by
  intro vals
  induction vals with
  | nil =>
    intro acc x h
    exact Or.inl (by simpa using h)
  | cons p rest ih =>
    intro acc x h
    rw [List.foldl_cons] at h
    rcases ih _ x h with h2 | h2
    · unfold addIfMatches at h2
      by_cases hm : strHasPfx pfx p.1
      · rw [if_pos hm] at h2
        by_cases hmem : p.1 ∈ acc
        · rw [if_pos hmem] at h2
          exact Or.inl h2
        · rw [if_neg hmem] at h2
          rcases List.mem_append.mp h2 with h3 | h3
          · exact Or.inl h3
          · simp only [List.mem_singleton] at h3
            subst h3
            exact Or.inr ⟨hm, p, List.mem_cons_self _ _, rfl⟩
      · rw [if_neg hm] at h2
        exact Or.inl h2
    · exact Or.inr ⟨h2.1, by
        obtain ⟨q, hq, hq2⟩ := h2.2
        exact ⟨q, List.mem_cons_of_mem _ hq, hq2⟩⟩

theorem addIfMatches_len (pfx : String) (a : List String) (p : String × List Nat) :
    (addIfMatches pfx a p).length ≤
      a.length + (if strHasPfx pfx p.1 then 1 else 0) := by
  unfold addIfMatches
  by_cases hm : strHasPfx pfx p.1
  · rw [if_pos hm, if_pos hm]
    by_cases hmem : p.1 ∈ a
    · rw [if_pos hmem]
      omega
    · rw [if_neg hmem]
      simp
  · rw [if_neg hm, if_neg hm]
    omega

theorem addIfMatches_foldl_len (pfx : String) :
    ∀ (vals : List (String × List Nat)) (acc : List String),
      (vals.foldl (addIfMatches pfx) acc).length ≤
        acc.length + vals.countP (fun p => strHasPfx pfx p.1) := by
  intro vals
  induction vals with
  | nil =>
    intro acc
    simp
  | cons p rest ih =>
    intro acc
    rw [List.foldl_cons]
    calc ((rest.foldl (addIfMatches pfx) (addIfMatches pfx acc p)).length)
        ≤ (addIfMatches pfx acc p).length +
            rest.countP (fun p => strHasPfx pfx p.1) := ih _
      _ ≤ acc.length + (if strHasPfx pfx p.1 then 1 else 0) +
            rest.countP (fun p => strHasPfx pfx p.1) := by
          have := addIfMatches_len pfx acc p
          omega
      _ ≤ acc.length + (p :: rest).countP (fun p => strHasPfx pfx p.1) := by
          rw [List.countP_cons]
          by_cases hm : strHasPfx pfx p.1
          · simp [hm]
            omega
          · simp [hm]

theorem addIfMatches_foldl_all (pfx : String) :
    ∀ (vals : List (String × List Nat)) (acc : List String),
      (∀ p ∈ vals, strHasPfx pfx p.1 = true) →
      (vals.map Prod.fst).Nodup →
      (∀ p ∈ vals, p.1 ∉ acc) →
      (vals.foldl (addIfMatches pfx) acc).length = acc.length + vals.length := by
  intro vals
  induction vals with
  | nil =>
    intro acc _ _ _
    simp
  | cons p rest ih =>
    intro acc hall hnd hdisj
    rw [List.foldl_cons]
    have hstep : addIfMatches pfx acc p = acc ++ [p.1] := by
      unfold addIfMatches
      rw [if_pos (hall p (List.mem_cons_self _ _)),
        if_neg (hdisj p (List.mem_cons_self _ _))]
    rw [hstep]
    rw [List.map_cons, List.nodup_cons] at hnd
    have hrec := ih (acc ++ [p.1])
      (fun q hq => hall q (List.mem_cons_of_mem _ hq)) hnd.2
      (fun q hq => by
        intro hmem
        rcases List.mem_append.mp hmem with h3 | h3
        · exact hdisj q (List.mem_cons_of_mem _ hq) h3
        · simp only [List.mem_singleton] at h3
          exact hnd.1 (h3 ▸ List.mem_map.mpr ⟨q, hq, rfl⟩))
    rw [hrec]
    simp only [List.length_append, List.length_singleton, List.length_cons,
      List.length_nil]
    omega

theorem collectTagValues_sound (pfx : String) (lim : Int) :
    ∀ (sets : List TagKVEntrySet) (acc : List String) (x : String),
      x ∈ collectTagValues pfx lim sets acc →
      x ∈ acc ∨ (strHasPfx pfx x = true ∧ ∃ es ∈ sets, ∃ p ∈ es.values, p.1 = x) := by
  intro sets
  induction sets with
  | nil =>
    intro acc x h
    exact Or.inl (by simpa [collectTagValues] using h)
  | cons es rest ih =>
    intro acc x h
    unfold collectTagValues at h
    split at h
    · exact Or.inl h
    · rcases ih _ x h with h2 | h2
      · rcases addIfMatches_foldl_mem pfx es.values acc x h2 with h3 | h3
        · exact Or.inl h3
        · refine Or.inr ⟨h3.1, es, List.mem_cons_self _ _, h3.2⟩
      · obtain ⟨hm, es2, hes2, hp⟩ := h2
        exact Or.inr ⟨hm, es2, List.mem_cons_of_mem _ hes2, hp⟩

theorem matchCount_le_max (pfx : String) :
    ∀ (sets : List TagKVEntrySet) (es : TagKVEntrySet), es ∈ sets →
      matchCount pfx es ≤ maxMatchCount pfx sets := by
  intro sets
  induction sets with
  | nil =>
    intro es h
    simp at h
  | cons a rest ih =>
    intro es h
    rcases List.mem_cons.mp h with rfl | h2
    · exact le_max_left _ _
    · exact le_trans (ih es h2) (le_max_right _ _)

theorem collectTagValues_len (pfx : String) (lim : Int) (M : Nat) :
    ∀ (sets : List TagKVEntrySet) (acc : List String),
      (∀ es ∈ sets, matchCount pfx es ≤ M) →
      ((collectTagValues pfx lim sets acc).length : Int) ≤
        max (acc.length : Int) (lim - 1 + M) := by
  intro sets
  induction sets with
  | nil =>
    intro acc _
    simp [collectTagValues]
  | cons es rest ih =>
    intro acc hM
    unfold collectTagValues
    split
    · exact le_max_left _ _
    · next hlt =>
      have hlt2 : (acc.length : Int) < lim := by omega
      have hacc2 : ((es.values.foldl (addIfMatches pfx) acc).length : Int) ≤
          lim - 1 + M := by
        have h1 := addIfMatches_foldl_len pfx es.values acc
        have h2 : matchCount pfx es ≤ M := hM es (List.mem_cons_self _ _)
        unfold matchCount at h2
        omega
      have hrec := ih (es.values.foldl (addIfMatches pfx) acc)
        (fun e he => hM e (List.mem_cons_of_mem _ he))
      calc ((collectTagValues pfx lim rest
              (es.values.foldl (addIfMatches pfx) acc)).length : Int)
          ≤ max ((es.values.foldl (addIfMatches pfx) acc).length : Int)
              (lim - 1 + M) := hrec
        _ ≤ lim - 1 + M := max_le hacc2 (le_refl _)
        _ ≤ max (acc.length : Int) (lim - 1 + M) := le_max_right _ _

theorem collectTagKeys_sound (pfx : String) (lim : Int) :
    ∀ (sets : List TagKVEntrySet) (acc : List String) (x : String),
      x ∈ collectTagKeys pfx lim sets acc →
      x ∈ acc ∨ (strHasPfx pfx x = true ∧ ∃ es ∈ sets, es.key = x) := by
  intro sets
  induction sets with
  | nil =>
    intro acc x h
    exact Or.inl (by simpa [collectTagKeys] using h)
  | cons es rest ih =>
    intro acc x h
    unfold collectTagKeys at h
    split at h
    · exact Or.inl h
    · rcases ih _ x h with h2 | h2
      · by_cases hm : strHasPfx pfx es.key
        · rw [if_pos hm] at h2
          by_cases hmem : es.key ∈ acc
          · rw [if_pos hmem] at h2
            exact Or.inl h2
          · rw [if_neg hmem] at h2
            rcases List.mem_append.mp h2 with h3 | h3
            · exact Or.inl h3
            · simp only [List.mem_singleton] at h3
              subst h3
              exact Or.inr ⟨hm, es, List.mem_cons_self _ _, rfl⟩
        · rw [if_neg hm] at h2
          exact Or.inl h2
      · obtain ⟨hm, es2, hes2, hk⟩ := h2
        exact Or.inr ⟨hm, es2, List.mem_cons_of_mem _ hes2, hk⟩

theorem collectTagKeys_len (pfx : String) (lim : Int) :
    ∀ (sets : List TagKVEntrySet) (acc : List String),
      ((collectTagKeys pfx lim sets acc).length : Int) ≤
        max (acc.length : Int) lim := by
  intro sets
  induction sets with
  | nil =>
    intro acc
    simp [collectTagKeys]
  | cons es rest ih =>
    intro acc
    unfold collectTagKeys
    split
    · exact le_max_left _ _
    · next hlt =>
      have hlt2 : (acc.length : Int) < lim := by omega
      have hstep : (((if strHasPfx pfx es.key then
          (if es.key ∈ acc then acc else acc ++ [es.key]) else acc)).length : Int) ≤
            lim := by
        by_cases hm : strHasPfx pfx es.key
        · rw [if_pos hm]
          by_cases hmem : es.key ∈ acc
          · rw [if_pos hmem]
            omega
          · rw [if_neg hmem]
            simp only [List.length_append, List.length_singleton]
            push_cast
            omega
        · rw [if_neg hm]
          omega
      calc ((collectTagKeys pfx lim rest _).length : Int)
          ≤ max _ lim := ih _
        _ ≤ lim := max_le hstep (le_refl _)
        _ ≤ max (acc.length : Int) lim := le_max_right _ _

/-- C9 (amended): the Suggest methods return only prefix-matching entries
    drawn from the entry sets of the mutable and immutable indexes
    (SuggestMetrics returns none by design), and SuggestTagKeys returns at
    most limit results; but SuggestTagValues checks its cap (the limit
    clamped to MaxSuggestions) only before each entry set, so its result
    count is bounded by that clamp minus one plus the largest
    matching-value count of a single entry set — and can therefore exceed
    MaxSuggestions, as the counterexample shows. -/
theorem claim_C9_amended (db : MemDB) (name tagKey mp kp vp : String)
    (limit : Int) :
    db.suggestMetrics mp limit = [] ∧
    (∀ k ∈ db.suggestTagKeys name kp limit,
      strHasPfx kp k = true ∧
        ∃ ms, db.getMStore name = some ms ∧ ∃ es ∈ ms.suggestSets, es.key = k) ∧
    ((db.suggestTagKeys name kp limit).length : Int) ≤ max limit 0 ∧
    (∀ v ∈ db.suggestTagValues name tagKey vp limit,
      strHasPfx vp v = true ∧
        ∃ ms, db.getMStore name = some ms ∧
          ∃ es ∈ ms.suggestSets, ∃ p ∈ es.values, p.1 = v) ∧
    ((db.suggestTagValues name tagKey vp limit).length : Int) ≤
      max 0 (min limit (constants.MaxSuggestions : Int) - 1 +
        (db.maxMatchFor name vp : Int)) := by
  have hclamp : (if limit > (constants.MaxSuggestions : Int)
      then (constants.MaxSuggestions : Int) else limit) =
        min limit (constants.MaxSuggestions : Int) := by
    split <;> omega
  refine ⟨rfl, ?_, ?_, ?_, ?_⟩
  · intro k hk
    unfold MemDB.suggestTagKeys at hk
    cases hc : db.getMStore name with
    | none => rw [hc] at hk; cases hk
    | some ms =>
      rw [hc] at hk
      dsimp only at hk
      unfold MetricStore.suggestTagKeys at hk
      by_cases hlim : limit ≤ 0
      · rw [if_pos hlim] at hk
        cases hk
      · rw [if_neg hlim] at hk
        rcases collectTagKeys_sound kp limit ms.suggestSets [] k hk with h2 | h2
        · cases h2
        · exact ⟨h2.1, ms, rfl, h2.2⟩
  · unfold MemDB.suggestTagKeys
    cases hc : db.getMStore name with
    | none =>
      simp only [List.length_nil, Int.natCast_zero]
      exact le_max_right _ _
    | some ms =>
      dsimp only
      unfold MetricStore.suggestTagKeys
      by_cases hlim : limit ≤ 0
      · rw [if_pos hlim]
        simp only [List.length_nil, Int.natCast_zero]
        exact le_max_right _ _
      · rw [if_neg hlim]
        have hb := collectTagKeys_len kp limit ms.suggestSets []
        simp only [List.length_nil, Int.natCast_zero] at hb
        rw [max_comm]
        exact hb
  · intro v hv
    unfold MemDB.suggestTagValues at hv
    cases hc : db.getMStore name with
    | none => rw [hc] at hv; cases hv
    | some ms =>
      rw [hc] at hv
      dsimp only at hv
      unfold MetricStore.suggestTagValues at hv
      by_cases hlim : limit ≤ 0
      · rw [if_pos hlim] at hv
        cases hv
      · rw [if_neg hlim] at hv
        rcases collectTagValues_sound vp _ ms.suggestSets [] v hv with h2 | h2
        · cases h2
        · exact ⟨h2.1, ms, rfl, h2.2⟩
  · unfold MemDB.suggestTagValues MemDB.maxMatchFor
    cases hc : db.getMStore name with
    | none =>
      simp only [List.length_nil, Int.natCast_zero]
      exact le_max_left _ _
    | some ms =>
      dsimp only
      unfold MetricStore.suggestTagValues
      by_cases hlim : limit ≤ 0
      · rw [if_pos hlim]
        simp only [List.length_nil, Int.natCast_zero]
        exact le_max_left _ _
      · rw [if_neg hlim]
        rw [hclamp]
        have hb := collectTagValues_len vp
          (min limit (constants.MaxSuggestions : Int))
          (maxMatchCount vp ms.suggestSets) ms.suggestSets []
          (fun es hes => matchCount_le_max vp ms.suggestSets es hes)
        simp only [List.length_nil, Int.natCast_zero] at hb
        exact hb

/-- C9 counterexample: a metric store with one entry set of 10001 distinct
    tag values: SuggestTagValues with limit 10000 passes the pre-entry-set
    cap check once and then collects all 10001 values, exceeding
    MaxSuggestions. -/
theorem claim_C9_counterexample :
    constants.MaxSuggestions < (c9Store.suggestTagValues "k" "" 10000).length := by
  have heval : c9Store.suggestTagValues "k" "" 10000 =
      c9Vals.foldl (addIfMatches "") [] := by
    unfold MetricStore.suggestTagValues
    rw [if_neg (by norm_num)]
    have hclamp : ¬ ((10000 : Int) > (constants.MaxSuggestions : Int)) := by
      norm_num [constants.MaxSuggestions]
    rw [if_neg hclamp]
    have hsets : c9Store.suggestSets = [⟨"k", c9Vals⟩] := rfl
    rw [hsets]
    unfold collectTagValues
    rw [if_neg (by norm_num)]
    have hnil : ∀ acc, collectTagValues "" 10000 [] acc = acc := fun _ => rfl
    rw [hnil]
  have hnodup : (c9Vals.map Prod.fst).Nodup := by
    have hmm : c9Vals.map Prod.fst =
        (List.range (constants.MaxSuggestions + 1)).map
          (fun i => String.mk (List.replicate i 'a')) := by
      unfold c9Vals
      rw [List.map_map]
      rfl
    rw [hmm]
    refine List.Nodup.map ?_ (List.nodup_range _)
    intro a b hab
    have hd := congrArg String.data hab
    simp only [String.data] at hd
    have hl := congrArg List.length hd
    simpa using hl
  have hall : ∀ p ∈ c9Vals, strHasPfx "" p.1 = true :=
    fun p _ => strHasPfx_empty p.1
  have hlen := addIfMatches_foldl_all "" c9Vals [] hall hnodup (by simp)
  rw [heval, hlen]
  unfold c9Vals
  simp [constants.MaxSuggestions]

/-- C9 witness: the amended theorem's soundness parts at a one-point
    database. -/
theorem claim_C9_amended_witness :
    ("host" ∈ (runOps 10000 [DBOp.write (mSum 0) 1]).suggestTagKeys "cpu" "" 5 ∧
      (strHasPfx "" "host" = true ∧
        ∃ ms, (runOps 10000 [DBOp.write (mSum 0) 1]).getMStore "cpu" = some ms ∧
          ∃ es ∈ ms.suggestSets, es.key = "host")) ∧
    ("a" ∈ (runOps 10000 [DBOp.write (mSum 0) 1]).suggestTagValues "cpu" "host" "" 5 ∧
      (strHasPfx "" "a" = true ∧
        ∃ ms, (runOps 10000 [DBOp.write (mSum 0) 1]).getMStore "cpu" = some ms ∧
          ∃ es ∈ ms.suggestSets, ∃ p ∈ es.values, p.1 = "a")) :=
  ⟨⟨by decide,
      (claim_C9_amended (runOps 10000 [DBOp.write (mSum 0) 1]) "cpu" "host" "" ""
        "" 5).2.1 "host" (by decide)⟩,
    ⟨by decide,
      (claim_C9_amended (runOps 10000 [DBOp.write (mSum 0) 1]) "cpu" "host" "" ""
        "" 5).2.2.2.1 "a" (by decide)⟩⟩

end LinDB
